import Mathlib

/-!
# Verification of the 8-puzzle A* solver (`puzzle.py`)

A shallow embedding of the solver in `src/puzzle.py`: boards are lists of
rows of naturals, search nodes form an inductive type whose `parent` chain
mirrors the Python back-references, the Python `heapq` module is embedded
as a fueled binary heap on lists, and the `a_star_solve` driver is a fueled
loop threading the `Problem` record (whose two counters model the mutable
attributes `nodes_expanded` / `nodes_generated`).

Python exceptions (`ValueError` from `get_hole_location`, `KeyError` from a
`goal_positions` lookup) are modelled by `Option`: `none` marks a raised
exception (or, in the fueled driver, fuel exhaustion, which never happens
for sufficiently large fuel).
-/

set_option maxHeartbeats 1000000

namespace Puzzle

/-- A board is a list of rows of tile values, as in the Python source
(`3x3 2d int array`). -/
abbrev Board := List (List Nat)

/-- `state[i][j]` of the Python source; all accesses in the source are
within bounds, so the defaults are never relevant on shaped boards. -/
def cell (b : Board) (i j : Nat) : Nat := (b.getD i []).getD j 0

/-- The nine index pairs visited by the nested `for i in range(3): for j in
range(3)` loops, in loop order. -/
def idxList : List (Nat × Nat) :=
  [(0,0),(0,1),(0,2),(1,0),(1,1),(1,2),(2,0),(2,1),(2,2)]

/-- `b[i][j] = v` on a list-of-rows board. -/
def set2 (b : Board) (i j : Nat) (v : Nat) : Board :=
  b.set i ((b.getD i []).set j v)

/-- The simultaneous swap
`new[hi][hj], new[ni][nj] = new[ni][nj], new[hi][hj]` of the source's
`get_neighbors`: both right-hand sides are read before writing. -/
def swapCells (b : Board) (hi hj ni nj : Nat) : Board :=
  let a := cell b hi hj
  let c := cell b ni nj
  set2 (set2 b hi hj c) ni nj a

/-- A valid board: 3×3 shape, and the nine cells are the digits 0–8, each
exactly once. -/
def validBoard (b : Board) : Prop :=
  b.map List.length = [3, 3, 3] ∧ b.flatten.Perm (List.range 9)

instance (b : Board) : Decidable (validBoard b) := by
  unfold validBoard
  have : Decidable (b.flatten.Perm (List.range 9)) :=
    decidable_of_iff (b.flatten.isPerm (List.range 9) = true) List.isPerm_iff
  exact instDecidableAnd

/-- `get_hole_location` generalized to an arbitrary target tile: scan the
nine cells in the loop order of the source and return the first hit; `none`
models the `ValueError` raised when the scan finds nothing. -/
def findTile (b : Board) (t : Nat) : Option (Nat × Nat) :=
  idxList.find? (fun p => cell b p.1 p.2 == t)

/-- `PuzzleNode.get_hole_location`: first cell equal to `0`, in row-major
scan order; `none` models the raised `ValueError "No blank tile found"`. -/
def get_hole_location (b : Board) : Option (Nat × Nat) := findTile b 0

/-- `PuzzleNode`: the Python class, with `parent_node=None` and
`parent_node=<node>` split into the two constructors `root` and `child`.
The stored fields are `node_state`, `h` and `hole_location`; `g` is not
stored because the source computes it at construction time from the parent
and never reassigns it (see `PNode.g`). -/
inductive PNode where
  | root (node_state : Board) (h : Nat) (hole_location : Nat × Nat)
  | child (node_state : Board) (parent : PNode) (h : Nat) (hole_location : Nat × Nat)
deriving DecidableEq, Repr

instance : Inhabited PNode := ⟨.root [] 0 (0, 0)⟩

/-- Field `node_state`. -/
def PNode.node_state : PNode → Board
  | .root s _ _ => s
  | .child s _ _ _ => s

/-- Field `parent_node` (`None` for a root node). -/
def PNode.parent_node : PNode → Option PNode
  | .root _ _ _ => none
  | .child _ p _ _ => p

/-- Field `h`. -/
def PNode.hval : PNode → Nat
  | .root _ h _ => h
  | .child _ _ h _ => h

/-- Field `hole_location`. -/
def PNode.hole_location : PNode → Nat × Nat
  | .root _ _ hl => hl
  | .child _ _ _ hl => hl

/-- Field `g`: the source sets `self.g = (parent_node.g + 1) if parent_node
else 0` in `__init__` and never reassigns it, so `g` is exactly this
function of the parent chain. -/
def PNode.g : PNode → Nat
  | .root _ _ _ => 0
  | .child _ p _ _ => p.g + 1

/-- `PuzzleNode.__init__(node_state, parent_node, h)`: computes
`hole_location` via `get_hole_location`, which raises (`none`) when the
board has no zero cell. -/
def PuzzleNode.init (node_state : Board) (parent_node : Option PNode) (h : Nat) :
    Option PNode :=
  (get_hole_location node_state).map (fun hl =>
    match parent_node with
    | none => PNode.root node_state h hl
    | some p => PNode.child node_state p h hl)

/-- The assignment `initial_node.h = ...` in `a_star_solve`. -/
def PNode.setH : PNode → Nat → PNode
  | .root s _ hl, h => .root s h hl
  | .child s p _ hl, h => .child s p h hl

/-- `PuzzleNode.__lt__`: comparison by `f = g + h`, used by `heapq`. -/
def nodeLT (a b : PNode) : Bool := decide (a.g + a.hval < b.g + b.hval)

/-- The `path` list built by `construct_path`'s `while` loop, before the
final `reverse`: the node followed by its ancestors. -/
def chainTo : PNode → List PNode
  | .root s h hl => [.root s h hl]
  | .child s p h hl => .child s p h hl :: chainTo p

/-- `construct_path(goal_state)`: ancestor chain, reversed to run from the
initial node to the given node. -/
def construct_path (n : PNode) : List PNode := (chainTo n).reverse

/-- `Problem`: goal board, heuristic flag, the `goal_positions` dict
(modelled as a function to `Option`, `none` for a `KeyError`), and the two
counters mutated by `get_neighbors`. -/
@[ext]
structure Problem where
  goal_state : Board
  use_manhattan : Bool
  goal_positions : Nat → Option (Nat × Nat)
  nodes_expanded : Nat
  nodes_generated : Nat

/-- `Problem.__init__(goal_state=None, use_manhattan=True)`. A `none` (or
empty-list, which is falsy in Python) goal argument selects the default
goal `[[1,2,3],[4,5,6],[7,8,0]]`. The `goal_positions` dict is built by the
nested loops, later assignments overwriting earlier ones. No validation of
the goal board is performed anywhere in the constructor. -/
def Problem.init (goal_state : Option Board := none) (use_manhattan : Bool := true) :
    Problem :=
  let gs : Board := match goal_state with
    | none => [[1,2,3],[4,5,6],[7,8,0]]
    | some b => if b.isEmpty then [[1,2,3],[4,5,6],[7,8,0]] else b
  { goal_state := gs
    use_manhattan := use_manhattan
    goal_positions :=
      idxList.foldl (fun d p => Function.update d (cell gs p.1 p.2) (some p))
        (fun _ => none)
    nodes_expanded := 0
    nodes_generated := 0 }

/-- `calculate_manhattan_distance`: sum over the nine cells, skipping the
hole, of `abs(i - goal_i) + abs(j - goal_j)`; a missing `goal_positions`
entry is a `KeyError` (`none`). -/
def calculate_manhattan_distance (pr : Problem) (state : Board) : Option Nat :=
  idxList.foldlM (fun h p =>
    let tile := cell state p.1 p.2
    if tile ≠ 0 then
      (pr.goal_positions tile).map (fun q => h + (Nat.dist p.1 q.1 + Nat.dist p.2 q.2))
    else some h) 0

/-- `calculate_misplaced_tiles`: for `tile in range(1, 9)`, add one when
the goal cell of `tile` does not currently hold `tile`. -/
def calculate_misplaced_tiles (pr : Problem) (state : Board) : Option Nat :=
  (List.range' 1 8).foldlM (fun h t =>
    (pr.goal_positions t).map (fun q => if t ≠ cell state q.1 q.2 then h + 1 else h)) 0

/-- `calculate_heuristic`: dispatch on `use_manhattan`. -/
def calculate_heuristic (pr : Problem) (state : Board) : Option Nat :=
  if pr.use_manhattan then calculate_manhattan_distance pr state
  else calculate_misplaced_tiles pr state

/-- `is_valid_move`: `0 <= i < 3 and 0 <= j < 3`. -/
def is_valid_move (i j : Int) : Bool :=
  0 ≤ i && i < 3 && 0 ≤ j && j < 3

/-- The four candidate offsets of `get_neighbors`, in source order:
down `(1,0)`, up `(-1,0)`, right `(0,1)`, left `(0,-1)`. -/
def deltas : List (Int × Int) := [(1, 0), (-1, 0), (0, 1), (0, -1)]

/-- `get_neighbors(current_node)`: increments `nodes_expanded` once, then
for each in-bounds offset copies the board, swaps the hole with the
candidate cell, scores the new state, constructs the child node (parent =
`current_node`) and increments `nodes_generated`. `none` propagates an
exception raised by the heuristic lookup or node construction. -/
def neighborStep (cur : PNode) (acc : Option (Problem × List PNode)) (d : Int × Int) :
    Option (Problem × List PNode) :=
  match acc with
  | none => none
  | some (p, ns) =>
    let hi := cur.hole_location.1
    let hj := cur.hole_location.2
    let ni : Int := (hi : Int) + d.1
    let nj : Int := (hj : Int) + d.2
    if is_valid_move ni nj then
      let new_state := swapCells cur.node_state hi hj ni.toNat nj.toNat
      match calculate_heuristic p new_state with
      | none => none
      | some new_h =>
        match PuzzleNode.init new_state (some cur) new_h with
        | none => none
        | some new_node =>
          some ({ p with nodes_generated := p.nodes_generated + 1 }, ns ++ [new_node])
    else some (p, ns)

def get_neighbors (pr : Problem) (cur : PNode) : Option (Problem × List PNode) :=
  deltas.foldl (neighborStep cur)
    (some ({ pr with nodes_expanded := pr.nodes_expanded + 1 }, []))

/-! ## The `heapq` module

A faithful embedding of CPython's `heapq.heappush` / `heappop` / `heapify`
on lists. The `while` loops of `_siftdown` and `_siftup` are fueled; the
fuel supplied at each call site strictly exceeds the number of iterations
the loop can perform (`_siftdown` moves `pos` strictly down towards
`startpos`, `_siftup` moves `pos` strictly up towards `len`), so the
fuel-exhausted branch is never taken. -/

/-- The `while pos > startpos` loop of `heapq._siftdown`. -/
def siftdownLoop : Nat → List PNode → Nat → Nat → PNode → List PNode
  | 0, heap, _, pos, newitem => heap.set pos newitem
  | fuel + 1, heap, startpos, pos, newitem =>
    if startpos < pos then
      let parentpos := (pos - 1) / 2
      let parent := heap.getD parentpos default
      if nodeLT newitem parent then
        siftdownLoop fuel (heap.set pos parent) startpos parentpos newitem
      else heap.set pos newitem
    else heap.set pos newitem

/-- `heapq._siftdown(heap, startpos, pos)`: `newitem = heap[pos]`, then the
loop. `pos + 1` units of fuel suffice since `pos` strictly decreases. -/
def siftdown (heap : List PNode) (startpos pos : Nat) : List PNode :=
  siftdownLoop (pos + 1) heap startpos pos (heap.getD pos default)

/-- The `while childpos < endpos` loop of `heapq._siftup`, ending with
`heap[pos] = newitem; _siftdown(heap, startpos, pos)`. -/
def siftupLoop : Nat → List PNode → Nat → Nat → PNode → List PNode
  | 0, heap, startpos, pos, newitem => siftdown (heap.set pos newitem) startpos pos
  | fuel + 1, heap, startpos, pos, newitem =>
    let endpos := heap.length
    let childpos := 2 * pos + 1
    if childpos < endpos then
      let rightpos := childpos + 1
      let childpos :=
        if rightpos < endpos &&
            !(nodeLT (heap.getD childpos default) (heap.getD rightpos default)) then
          rightpos
        else childpos
      siftupLoop fuel (heap.set pos (heap.getD childpos default)) startpos childpos newitem
    else siftdown (heap.set pos newitem) startpos pos

/-- `heapq._siftup(heap, pos)`: `startpos = pos`, `newitem = heap[pos]`.
`heap.length + 1` units of fuel suffice since `pos` strictly increases and
stays below `heap.length`. -/
def siftup (heap : List PNode) (pos : Nat) : List PNode :=
  siftupLoop (heap.length + 1) heap pos pos (heap.getD pos default)

/-- `heapq.heappush`. -/
def heappush (heap : List PNode) (item : PNode) : List PNode :=
  let heap := heap ++ [item]
  siftdown heap 0 (heap.length - 1)

/-- `heapq.heappop`: `none` models the `IndexError` on an empty list (the
driver only pops while the frontier is non-empty). -/
def heappop (heap : List PNode) : Option (PNode × List PNode) :=
  match heap.getLast? with
  | none => none
  | some lastelt =>
    let heap := heap.dropLast
    if heap.isEmpty then some (lastelt, heap)
    else some (heap.getD 0 default, siftup (heap.set 0 lastelt) 0)

/-- `heapq.heapify`: `for i in reversed(range(n//2)): _siftup(x, i)`. -/
def heapify (x : List PNode) : List PNode :=
  (List.range (x.length / 2)).reverse.foldl (fun h i => siftup h i) x

/-! ## The A* driver -/

/-- The `while frontier` loop of `a_star_solve`, with fuel. The result is
`none` when fuel runs out or an exception propagates; otherwise
`some (res, pr, maxf)` where `res` is what the Python function returns
(`construct_path(current_node)` on success, `None` on frontier exhaustion),
`pr` the problem with its final counters, and `maxf` the local variable
`max_frontier_size`. -/
def a_star_loop (fuel : Nat) (pr : Problem) (frontier : List PNode)
    (explored : List Board) (maxf : Nat) :
    Option (Option (List PNode) × Problem × Nat) :=
  match fuel with
  | 0 => none
  | fuel + 1 =>
    if frontier.isEmpty then some (none, pr, maxf)
    else
      let maxf := max maxf frontier.length
      match heappop frontier with
      | none => none
      | some (current, frontier) =>
        if current.node_state = pr.goal_state then
          some (some (construct_path current), pr, maxf)
        else
          match get_neighbors pr current with
          | none => none
          | some (pr, neighbors) =>
            let explored := current.node_state :: explored
            let frontier := neighbors.foldl
              (fun f nb => if nb.node_state ∈ explored then f else heappush f nb)
              frontier
            a_star_loop fuel pr frontier explored maxf

/-- `a_star_solve(problem, initial_state)`: build the initial node (g = 0,
h recomputed from the problem), heapify the singleton frontier, run the
loop. What the caller receives is the returned path (or `None`) together
with the problem object whose counters the search mutated; the local
`max_frontier_size` is discarded, exactly as in the source, which never
returns or prints it. -/
def a_star_solve (pr : Problem) (initial_state : Board) (fuel : Nat) :
    Option (Option (List PNode) × Problem) :=
  match PuzzleNode.init initial_state none 0 with
  | none => none
  | some node0 =>
    match calculate_heuristic pr initial_state with
    | none => none
    | some h0 =>
      let node0 := node0.setH h0
      let frontier := heapify [node0]
      (a_star_loop fuel pr frontier [] 1).map (fun r => (r.1, r.2.1))

/-- Instrumented twin of `a_star_loop` for stating trace properties: same
recursion, additionally returning the list of popped states (`pops`, in pop
order) and, for each expansion performed, the number of neighbors it
produced (`gens`). -/
def a_star_trace (fuel : Nat) (pr : Problem) (frontier : List PNode)
    (explored : List Board) (maxf : Nat) :
    Option (List Board × List Nat × Option (List PNode) × Problem × Nat) :=
  match fuel with
  | 0 => none
  | fuel + 1 =>
    if frontier.isEmpty then some ([], [], none, pr, maxf)
    else
      let maxf := max maxf frontier.length
      match heappop frontier with
      | none => none
      | some (current, frontier) =>
        if current.node_state = pr.goal_state then
          some ([current.node_state], [], some (construct_path current), pr, maxf)
        else
          match get_neighbors pr current with
          | none => none
          | some (pr, neighbors) =>
            let explored := current.node_state :: explored
            let frontier := neighbors.foldl
              (fun f nb => if nb.node_state ∈ explored then f else heappush f nb)
              frontier
            (a_star_trace fuel pr frontier explored maxf).map
              (fun r => (current.node_state :: r.1, neighbors.length :: r.2.1, r.2.2))

/-- One legal tile move: some scanned position holds the hole, some
candidate offset stays in bounds, and the successor board is the adjacent
swap the source performs. -/
def isMove (s s' : Board) : Prop :=
  ∃ hi hj d, (hi, hj) ∈ idxList ∧ d ∈ deltas ∧ cell s hi hj = 0 ∧
    is_valid_move ((hi : Int) + d.1) ((hj : Int) + d.2) = true ∧
    s' = swapCells s hi hj ((hi : Int) + d.1).toNat ((hj : Int) + d.2).toNat

/-- A node the search can legitimately hold: its ancestor chain ends at a
root carrying the initial state `s0`, every step is one legal move, and the
stored hole location is the one `get_hole_location` computes. -/
inductive GoodNode (s0 : Board) : PNode → Prop where
  | root : ∀ s h hl, s = s0 → get_hole_location s = some hl →
      GoodNode s0 (.root s h hl)
  | step : ∀ s p h hl, GoodNode s0 p → isMove p.node_state s →
      get_hole_location s = some hl → GoodNode s0 (.child s p h hl)

/-- The count the spec describes: non-hole tiles (1–8) whose current
position (row-major scan) differs from their goal position. -/
def misplacedSpec (g s : Board) : Nat :=
  (List.range' 1 8).countP (fun t => decide (findTile s t ≠ findTile g t))

/-- The spec's error enumeration for the configuration constructor. -/
inductive ConfigError where
  | invalidGoalState
deriving DecidableEq, Repr

/-- Modelled from the spec (§6): `configure(goalState, heuristicChoice) ->
ProblemConfiguration` "fails with `InvalidGoalState` if the goal board does
not contain each of 0–8 exactly once". The source constructor has no such
validation; this definition follows the spec's words, for comparison
against `Problem.init`. -/
def configureSpec (goal : Board) (um : Bool) : Except ConfigError Problem :=
  if validBoard goal then Except.ok (Problem.init (some goal) um)
  else Except.error ConfigError.invalidGoalState

/-! ## Board indexing infrastructure -/

/-- The nine cells of a board, in the row-major order of `idxList`. -/
def cells (b : Board) : List Nat := idxList.map (fun p => cell b p.1 p.2)

theorem shape_cases {b : Board} (hb : b.map List.length = [3, 3, 3]) :
    ∃ a0 a1 a2 a3 a4 a5 a6 a7 a8,
      b = [[a0, a1, a2], [a3, a4, a5], [a6, a7, a8]] := by
  have hlen : b.length = 3 := by
    have := congrArg List.length hb
    simpa using this
  obtain ⟨r0, r1, r2, rfl⟩ := List.length_eq_three.mp hlen
  simp only [List.map_cons, List.map_nil, List.cons.injEq, and_true] at hb
  obtain ⟨h0, h1, h2⟩ := hb
  obtain ⟨a0, a1, a2, rfl⟩ := List.length_eq_three.mp h0
  obtain ⟨a3, a4, a5, rfl⟩ := List.length_eq_three.mp h1
  obtain ⟨a6, a7, a8, rfl⟩ := List.length_eq_three.mp h2
  exact ⟨a0, a1, a2, a3, a4, a5, a6, a7, a8, rfl⟩

theorem flatten_eq_cells {b : Board} (hb : b.map List.length = [3, 3, 3]) :
    b.flatten = cells b := by
  obtain ⟨a0, a1, a2, a3, a4, a5, a6, a7, a8, rfl⟩ := shape_cases hb
  rfl

theorem mem_idxList {i j : Nat} : (i, j) ∈ idxList ↔ i < 3 ∧ j < 3 := by
  simp only [idxList, List.mem_cons, List.not_mem_nil, or_false, Prod.mk.injEq]
  omega

theorem cell_eq_flatten_getD {b : Board} (hb : b.map List.length = [3, 3, 3])
    {p : Nat × Nat} (hp : p ∈ idxList) :
    cell b p.1 p.2 = b.flatten.getD (3 * p.1 + p.2) 0 := by
  obtain ⟨a0, a1, a2, a3, a4, a5, a6, a7, a8, rfl⟩ := shape_cases hb
  fin_cases hp <;> rfl

theorem flatten_length {b : Board} (hb : b.map List.length = [3, 3, 3]) :
    b.flatten.length = 9 := by
  obtain ⟨a0, a1, a2, a3, a4, a5, a6, a7, a8, rfl⟩ := shape_cases hb
  rfl

theorem mem_flatten_iff {b : Board} (hb : b.map List.length = [3, 3, 3]) {v : Nat} :
    v ∈ b.flatten ↔ ∃ p ∈ idxList, cell b p.1 p.2 = v := by
  obtain ⟨a0, a1, a2, a3, a4, a5, a6, a7, a8, rfl⟩ := shape_cases hb
  constructor
  · intro hv
    simp only [List.flatten_cons, List.flatten_nil, List.append_nil, List.mem_append,
      List.mem_cons, List.not_mem_nil, or_false] at hv
    rcases hv with (h | h | h) | (h | h | h) | (h | h | h) <;> subst h
    · exact ⟨(0,0), by decide, rfl⟩
    · exact ⟨(0,1), by decide, rfl⟩
    · exact ⟨(0,2), by decide, rfl⟩
    · exact ⟨(1,0), by decide, rfl⟩
    · exact ⟨(1,1), by decide, rfl⟩
    · exact ⟨(1,2), by decide, rfl⟩
    · exact ⟨(2,0), by decide, rfl⟩
    · exact ⟨(2,1), by decide, rfl⟩
    · exact ⟨(2,2), by decide, rfl⟩
  · rintro ⟨p, hp, rfl⟩
    fin_cases hp <;> simp [cell]

theorem validBoard_nodup {b : Board} (hb : validBoard b) : b.flatten.Nodup :=
  hb.2.nodup_iff.mpr (List.nodup_range 9)

theorem validBoard_mem_iff {b : Board} (hb : validBoard b) {v : Nat} :
    v ∈ b.flatten ↔ v < 9 := by
  rw [hb.2.mem_iff, List.mem_range]

/-- On a valid board every tile value sits at a unique scanned position. -/
theorem validBoard_cell_inj {b : Board} (hb : validBoard b)
    {p q : Nat × Nat} (hp : p ∈ idxList) (hq : q ∈ idxList)
    (he : cell b p.1 p.2 = cell b q.1 q.2) : p = q := by
  have hlen := flatten_length hb.1
  have hpb : 3 * p.1 + p.2 < b.flatten.length := by
    rw [hlen]; rcases p with ⟨i, j⟩
    have := mem_idxList.mp hp; omega
  have hqb : 3 * q.1 + q.2 < b.flatten.length := by
    rw [hlen]; rcases q with ⟨i, j⟩
    have := mem_idxList.mp hq; omega
  rw [cell_eq_flatten_getD hb.1 hp, cell_eq_flatten_getD hb.1 hq,
    List.getD_eq_getElem _ _ hpb, List.getD_eq_getElem _ _ hqb] at he
  have hidx : 3 * p.1 + p.2 = 3 * q.1 + q.2 :=
    (List.Nodup.getElem_inj_iff (validBoard_nodup hb)).mp he
  rcases p with ⟨i, j⟩; rcases q with ⟨x, y⟩
  have h1 := mem_idxList.mp hp
  have h2 := mem_idxList.mp hq
  simp only [Prod.mk.injEq]
  omega

/-- On a valid board, `findTile` finds every digit below 9, at a position
that is in bounds and actually holds the digit. -/
theorem findTile_valid {b : Board} (hb : validBoard b) {t : Nat} (ht : t < 9) :
    ∃ p, findTile b t = some p ∧ p ∈ idxList ∧ cell b p.1 p.2 = t := by
  have hmem : t ∈ b.flatten := (validBoard_mem_iff hb).mpr ht
  obtain ⟨p, hp, hc⟩ := (mem_flatten_iff hb.1).mp hmem
  have hsome : (idxList.find? (fun q => cell b q.1 q.2 == t)).isSome := by
    rw [List.find?_isSome]
    exact ⟨p, hp, by simpa using hc⟩
  obtain ⟨q, hq⟩ := Option.isSome_iff_exists.mp hsome
  refine ⟨q, hq, List.mem_of_find?_eq_some hq, ?_⟩
  have := List.find?_some hq
  simpa using this

/-- The position `findTile` returns is the unique scanned position holding
the digit. -/
theorem findTile_unique {b : Board} (hb : validBoard b) {t : Nat}
    {p : Nat × Nat} (hp : p ∈ idxList) (hc : cell b p.1 p.2 = t) :
    findTile b t = some p := by
  have ht : t < 9 := by
    rw [← validBoard_mem_iff hb, mem_flatten_iff hb.1]
    exact ⟨p, hp, hc⟩
  obtain ⟨q, hq, hqi, hqc⟩ := findTile_valid hb ht
  rwa [validBoard_cell_inj hb hqi hp (hqc.trans hc.symm)] at hq

/-! ## `Problem.init` and `goal_positions` -/

theorem init_goal_state {g : Board} (hg : g.map List.length = [3, 3, 3]) (um : Bool) :
    (Problem.init (some g) um).goal_state = g := by
  obtain ⟨a0, a1, a2, a3, a4, a5, a6, a7, a8, rfl⟩ := shape_cases hg
  rfl

/-- A chain of `Function.update`s over an association list looks up as: last
matching entry, else the initial map. Stated with `reverse.find?`. -/
theorem foldl_update_lookup (key : Nat × Nat → Nat) :
    ∀ (l : List (Nat × Nat)) (d0 : Nat → Option (Nat × Nat)) (t : Nat),
      (l.foldl (fun d p => Function.update d (key p) (some p)) d0) t =
        (l.reverse.find? (fun p => key p == t)).or (d0 t) := by
  intro l
  induction l with
  | nil => intro d0 t; simp
  | cons a l ih =>
    intro d0 t
    rw [List.foldl_cons, ih, List.reverse_cons, List.find?_append, Option.or_assoc]
    congr 1
    rcases h : (key a == t) with _ | _
    · have hne : key a ≠ t := by simpa using h
      show Function.update d0 (key a) (some a) t = _
      rw [Function.update_apply, if_neg (fun ht => hne ht.symm)]
      simp [List.find?, h]
    · have heq : key a = t := by simpa using h
      show Function.update d0 (key a) (some a) t = _
      subst heq
      rw [Function.update_same]
      simp [List.find?, h]

theorem goal_positions_spec {g : Board} (hg : g.map List.length = [3, 3, 3])
    (um : Bool) (t : Nat) :
    (Problem.init (some g) um).goal_positions t =
      (idxList.reverse.find? (fun p => cell g p.1 p.2 == t)).or none := by
  have hne : ¬ g.isEmpty := by
    obtain ⟨a0, a1, a2, a3, a4, a5, a6, a7, a8, rfl⟩ := shape_cases hg
    simp
  show (idxList.foldl (fun d p => Function.update d (cell _ p.1 p.2) (some p))
      (fun _ => none)) t = _
  obtain ⟨a0, a1, a2, a3, a4, a5, a6, a7, a8, rfl⟩ := shape_cases hg
  exact foldl_update_lookup _ idxList (fun _ => none) t

/-- On a valid goal board the `goal_positions` dict maps a tile value to
the unique scanned position holding it. -/
theorem goal_positions_eq_some {g : Board} (hg : validBoard g) (um : Bool)
    {t : Nat} {p : Nat × Nat} (hp : p ∈ idxList) (hc : cell g p.1 p.2 = t) :
    (Problem.init (some g) um).goal_positions t = some p := by
  rw [goal_positions_spec hg.1 um t, Option.or_none]
  have hsome : (idxList.reverse.find? (fun q => cell g q.1 q.2 == t)).isSome := by
    rw [List.find?_isSome]
    exact ⟨p, by simpa using hp, by simpa using hc⟩
  obtain ⟨q, hq⟩ := Option.isSome_iff_exists.mp hsome
  have hqi : q ∈ idxList := by
    have := List.mem_of_find?_eq_some hq
    simpa using this
  have hqc : cell g q.1 q.2 = t := by simpa using List.find?_some hq
  rwa [validBoard_cell_inj hg hqi hp (hqc.trans hc.symm)] at hq

theorem goal_positions_isSome {g : Board} (hg : validBoard g) (um : Bool)
    {t : Nat} (ht : t < 9) :
    ((Problem.init (some g) um).goal_positions t).isSome := by
  obtain ⟨p, _, hpi, hpc⟩ := findTile_valid hg ht
  rw [goal_positions_eq_some hg um hpi hpc]
  rfl

/-! ## Totality of the heuristics on valid data -/

theorem foldlM_option_isSome {α β : Type} (f : β → α → Option β) :
    ∀ (l : List α) (b : β), (∀ a ∈ l, ∀ c, (f c a).isSome) →
      (l.foldlM f b).isSome := by
  intro l
  induction l with
  | nil => intro b _; rfl
  | cons a l ih =>
    intro b hf
    rw [List.foldlM_cons]
    obtain ⟨c, hc⟩ := Option.isSome_iff_exists.mp (hf a (by simp) b)
    rw [hc]
    exact ih c (fun x hx d => hf x (by simp [hx]) d)

theorem misplaced_isSome {pr : Problem}
    (hlook : ∀ t, t < 9 → (pr.goal_positions t).isSome) (s : Board) :
    (calculate_misplaced_tiles pr s).isSome := by
  apply foldlM_option_isSome
  intro t ht c
  have h9 : t < 9 := by
    have := List.mem_range'_1.mp ht; omega
  obtain ⟨q, hq⟩ := Option.isSome_iff_exists.mp (hlook t h9)
  simp [hq]

theorem manhattan_isSome {pr : Problem}
    (hlook : ∀ t, t < 9 → (pr.goal_positions t).isSome) {s : Board}
    (hs : ∀ p ∈ idxList, cell s p.1 p.2 < 9) :
    (calculate_manhattan_distance pr s).isSome := by
  apply foldlM_option_isSome
  intro p hp c
  by_cases h0 : cell s p.1 p.2 = 0
  · simp [h0]
  · obtain ⟨q, hq⟩ := Option.isSome_iff_exists.mp (hlook _ (hs p hp))
    simp [h0, hq]

theorem heuristic_isSome {pr : Problem}
    (hlook : ∀ t, t < 9 → (pr.goal_positions t).isSome) {s : Board}
    (hs : ∀ p ∈ idxList, cell s p.1 p.2 < 9) :
    (calculate_heuristic pr s).isSome := by
  unfold calculate_heuristic
  rcases h : pr.use_manhattan
  · rw [if_neg (by simp [h])]
    exact misplaced_isSome hlook s
  · rw [if_pos (by simp [h])]
    exact manhattan_isSome hlook hs

/-! ## Cells of `set2` and `swapCells` -/

theorem cell_set2 {b : Board} (hb : b.map List.length = [3, 3, 3])
    {x y : Nat} (hxy : (x, y) ∈ idxList) {i j : Nat} (hij : (i, j) ∈ idxList)
    (v : Nat) :
    cell (set2 b x y v) i j = if i = x ∧ j = y then v else cell b i j := by
  obtain ⟨a0, a1, a2, a3, a4, a5, a6, a7, a8, rfl⟩ := shape_cases hb
  fin_cases hxy <;> fin_cases hij <;> simp [set2, cell]

theorem shape_set2 {b : Board} (hb : b.map List.length = [3, 3, 3])
    {x y : Nat} (hxy : (x, y) ∈ idxList) (v : Nat) :
    (set2 b x y v).map List.length = [3, 3, 3] := by
  obtain ⟨a0, a1, a2, a3, a4, a5, a6, a7, a8, rfl⟩ := shape_cases hb
  fin_cases hxy <;> rfl

theorem cell_swapCells {b : Board} (hb : b.map List.length = [3, 3, 3])
    {hi hj ni nj : Nat} (hh : (hi, hj) ∈ idxList) (hn : (ni, nj) ∈ idxList)
    {i j : Nat} (hij : (i, j) ∈ idxList) :
    cell (swapCells b hi hj ni nj) i j =
      if i = ni ∧ j = nj then cell b hi hj
      else if i = hi ∧ j = hj then cell b ni nj
      else cell b i j := by
  unfold swapCells
  rw [cell_set2 (shape_set2 hb hh _) hn hij, cell_set2 hb hh hij]

theorem shape_swapCells {b : Board} (hb : b.map List.length = [3, 3, 3])
    {hi hj ni nj : Nat} (hh : (hi, hj) ∈ idxList) (hn : (ni, nj) ∈ idxList) :
    (swapCells b hi hj ni nj).map List.length = [3, 3, 3] :=
  shape_set2 (shape_set2 hb hh _) hn _

theorem cells_lt_of_valid {s : Board} (hs : validBoard s) :
    ∀ p ∈ idxList, cell s p.1 p.2 < 9 := by
  intro p hp
  rw [← validBoard_mem_iff hs, mem_flatten_iff hs.1]
  exact ⟨p, hp, rfl⟩

theorem cells_swap_lt {s : Board} (hs : validBoard s)
    {hi hj ni nj : Nat} (hh : (hi, hj) ∈ idxList) (hn : (ni, nj) ∈ idxList) :
    ∀ p ∈ idxList, cell (swapCells s hi hj ni nj) p.1 p.2 < 9 := by
  rintro ⟨i, j⟩ hp
  rw [cell_swapCells hs.1 hh hn hp]
  split
  · exact cells_lt_of_valid hs _ hh
  · split
    · exact cells_lt_of_valid hs _ hn
    · exact cells_lt_of_valid hs _ hp

/-! ## Misplaced-tiles: source count versus spec count -/

/-- Per-tile bridge: on valid boards, "the goal cell of `t` does not hold
`t`" (what the source tests) is equivalent to "`t`'s position differs
between the two boards" (what the spec says). -/
theorem misplaced_pointwise {g s : Board} (hg : validBoard g) (hs : validBoard s)
    {t : Nat} (ht : t < 9) {pg : Nat × Nat} (hpg : pg ∈ idxList)
    (hcg : cell g pg.1 pg.2 = t) :
    (t ≠ cell s pg.1 pg.2) ↔ findTile s t ≠ findTile g t := by
  have hfg : findTile g t = some pg := findTile_unique hg hpg hcg
  constructor
  · intro hne heq
    obtain ⟨ps, hfs, hpsi, hpsc⟩ := findTile_valid hs ht
    rw [hfs, hfg] at heq
    apply hne
    rw [← hpsc]
    cases heq
    rfl
  · intro hne hc
    exact hne (by rw [findTile_unique hs hpg hc.symm, hfg])

theorem misplaced_fold {g s : Board} (hg : validBoard g) (hs : validBoard s)
    (um : Bool) :
    ∀ (ts : List Nat) (acc : Nat), (∀ t ∈ ts, 1 ≤ t ∧ t < 9) →
      ts.foldlM (fun h t => ((Problem.init (some g) um).goal_positions t).map
          (fun q => if t ≠ cell s q.1 q.2 then h + 1 else h)) acc =
        some (acc + ts.countP (fun t => decide (findTile s t ≠ findTile g t))) := by
  intro ts
  induction ts with
  | nil => intro acc _; simp
  | cons t ts ih =>
    intro acc hts
    have ht : t < 9 := (hts t (by simp)).2
    obtain ⟨pg, hfg, hpgi, hpgc⟩ := findTile_valid hg ht
    have hlook : (Problem.init (some g) um).goal_positions t = some pg :=
      goal_positions_eq_some hg um hpgi hpgc
    rw [List.foldlM_cons, hlook]
    show (ts.foldlM _ (if t ≠ cell s pg.1 pg.2 then acc + 1 else acc)) = _
    rw [ih _ (fun x hx => hts x (by simp [hx])), List.countP_cons]
    congr 1
    have hiff := misplaced_pointwise hg hs ht hpgi hpgc
    by_cases hc : t = cell s pg.1 pg.2
    · have h1 : ¬ (t ≠ cell s pg.1 pg.2) := fun h => h hc
      have h2 : ¬ (findTile s t ≠ findTile g t) := fun h => h1 (hiff.mpr h)
      rw [if_neg h1, if_neg (by simpa using h2)]
      omega
    · have h2 : findTile s t ≠ findTile g t := hiff.mp hc
      rw [if_pos hc, if_pos (by simpa using h2)]
      omega

/-! ## Moves and the expansion rule -/

theorem hole_spec {b : Board} {hl : Nat × Nat} (h : get_hole_location b = some hl) :
    hl ∈ idxList ∧ cell b hl.1 hl.2 = 0 := by
  have h' : idxList.find? (fun p => cell b p.1 p.2 == 0) = some hl := h
  exact ⟨List.mem_of_find?_eq_some h', by simpa using List.find?_some h'⟩

theorem is_valid_move_iff {i j : Int} :
    is_valid_move i j = true ↔ 0 ≤ i ∧ i < 3 ∧ 0 ≤ j ∧ j < 3 := by
  simp [is_valid_move, and_assoc]

theorem delta_target {hi hj : Nat} {d : Int × Int} (hd : d ∈ deltas)
    (hv : is_valid_move ((hi : Int) + d.1) ((hj : Int) + d.2) = true) :
    (((hi : Int) + d.1).toNat, ((hj : Int) + d.2).toNat) ∈ idxList ∧
      (((hi : Int) + d.1).toNat, ((hj : Int) + d.2).toNat) ≠ (hi, hj) := by
  have hb := is_valid_move_iff.mp hv
  constructor
  · exact mem_idxList.mpr ⟨by omega, by omega⟩
  · intro hc
    rw [Prod.mk.injEq] at hc
    fin_cases hd <;> simp only [] at hc hb ⊢ <;> omega

theorem neighborStep_none (cur : PNode) :
    ∀ ds : List (Int × Int), ds.foldl (neighborStep cur) none = none := by
  intro ds
  induction ds with
  | nil => rfl
  | cons d ds ih => rw [List.foldl_cons]; exact ih

/-- The three possible outcomes of one step of the expansion loop. -/
theorem neighborStep_cases (cur : PNode) (p : Problem) (ns : List PNode)
    (d : Int × Int) :
    neighborStep cur (some (p, ns)) d = none ∨
    (neighborStep cur (some (p, ns)) d = some (p, ns) ∧
      is_valid_move ((cur.hole_location.1 : Int) + d.1)
        ((cur.hole_location.2 : Int) + d.2) = false) ∨
    ∃ nb h',
      is_valid_move ((cur.hole_location.1 : Int) + d.1)
          ((cur.hole_location.2 : Int) + d.2) = true ∧
      PuzzleNode.init
        (swapCells cur.node_state cur.hole_location.1 cur.hole_location.2
          ((cur.hole_location.1 : Int) + d.1).toNat
          ((cur.hole_location.2 : Int) + d.2).toNat) (some cur) h' = some nb ∧
      neighborStep cur (some (p, ns)) d =
        some ({ p with nodes_generated := p.nodes_generated + 1 }, ns ++ [nb]) := by
  unfold neighborStep
  rcases hv : is_valid_move ((cur.hole_location.1 : Int) + d.1)
      ((cur.hole_location.2 : Int) + d.2) with _ | _
  · right; left
    constructor
    · simp [hv]
    · rfl
  · rcases hheu : calculate_heuristic p
        (swapCells cur.node_state cur.hole_location.1 cur.hole_location.2
          ((cur.hole_location.1 : Int) + d.1).toNat
          ((cur.hole_location.2 : Int) + d.2).toNat) with _ | h'
    · left; simp [hv, hheu]
    · rcases hinit : PuzzleNode.init
          (swapCells cur.node_state cur.hole_location.1 cur.hole_location.2
            ((cur.hole_location.1 : Int) + d.1).toNat
            ((cur.hole_location.2 : Int) + d.2).toNat) (some cur) h' with _ | nb
      · left; simp [hv, hheu, hinit]
      · right; right
        exact ⟨nb, h', rfl, hinit, by simp [hv, hheu, hinit]⟩

/-- Counter bookkeeping of the expansion fold: `nodes_expanded` untouched,
`nodes_generated` advanced by exactly the number of appended neighbors, all
other fields untouched. -/
theorem neighborStep_counters (cur : PNode) :
    ∀ (ds : List (Int × Int)) (p : Problem) (ns : List PNode) {p2 : Problem}
      {ns2 : List PNode},
      ds.foldl (neighborStep cur) (some (p, ns)) = some (p2, ns2) →
      p2.nodes_expanded = p.nodes_expanded ∧ p2.goal_state = p.goal_state ∧
      p2.use_manhattan = p.use_manhattan ∧ p2.goal_positions = p.goal_positions ∧
      p2.nodes_generated + ns.length = p.nodes_generated + ns2.length ∧
      ns.length ≤ ns2.length := by
  intro ds
  induction ds with
  | nil =>
    intro p ns p2 ns2 h
    rw [List.foldl_nil, Option.some.injEq, Prod.mk.injEq] at h
    obtain ⟨rfl, rfl⟩ := h
    exact ⟨rfl, rfl, rfl, rfl, rfl, le_refl _⟩
  | cons d ds ih =>
    intro p ns p2 ns2 h
    rw [List.foldl_cons] at h
    rcases neighborStep_cases cur p ns d with hc | ⟨hc, _⟩ | ⟨nb, h', _, _, hc⟩
    · rw [hc, neighborStep_none] at h
      cases h
    · rw [hc] at h
      exact ih p ns h
    · rw [hc] at h
      obtain ⟨h1, h2, h3, h4, h5, h6⟩ := ih _ _ h
      refine ⟨h1, h2, h3, h4, ?_, ?_⟩ <;>
        simp only [List.length_append, List.length_cons, List.length_nil] at h5 h6 ⊢ <;>
        omega

theorem hole_swap_some {s : Board} (hshape : s.map List.length = [3, 3, 3])
    {hi hj ni nj : Nat} (hh : (hi, hj) ∈ idxList) (hn : (ni, nj) ∈ idxList)
    (hz : cell s hi hj = 0) :
    ∃ hl, get_hole_location (swapCells s hi hj ni nj) = some hl := by
  have hc : cell (swapCells s hi hj ni nj) ni nj = 0 := by
    rw [cell_swapCells hshape hh hn hn, if_pos ⟨rfl, rfl⟩]
    exact hz
  have hsome : (idxList.find? (fun p => cell (swapCells s hi hj ni nj) p.1 p.2 == 0)).isSome := by
    rw [List.find?_isSome]
    exact ⟨(ni, nj), hn, by simpa using hc⟩
  exact Option.isSome_iff_exists.mp hsome

theorem init_fields {b : Board} {par : Option PNode} {h' : Nat} {nb : PNode}
    (h : PuzzleNode.init b par h' = some nb) :
    nb.node_state = b ∧ nb.parent_node = par ∧ nb.hval = h' ∧
      get_hole_location b = some nb.hole_location := by
  unfold PuzzleNode.init at h
  rw [Option.map_eq_some'] at h
  obtain ⟨hl, hfind, hfn⟩ := h
  cases par <;> cases hfn <;>
    simp [PNode.node_state, PNode.parent_node, PNode.hval, PNode.hole_location, hfind]

/-- Every neighbor produced by a successful expansion fold is either
carried over from the accumulator or is a child of the expanded node,
reached by one legal move. -/
theorem neighborStep_sound (cur : PNode)
    (hh : get_hole_location cur.node_state = some cur.hole_location) :
    ∀ (ds : List (Int × Int)), (∀ d ∈ ds, d ∈ deltas) →
      ∀ (p : Problem) (ns : List PNode) {p2 : Problem} {ns2 : List PNode},
        ds.foldl (neighborStep cur) (some (p, ns)) = some (p2, ns2) →
        ∀ nb ∈ ns2, nb ∈ ns ∨
          (nb.parent_node = some cur ∧ isMove cur.node_state nb.node_state ∧
            get_hole_location nb.node_state = some nb.hole_location ∧
            ∃ d ∈ deltas,
              is_valid_move ((cur.hole_location.1 : Int) + d.1)
                ((cur.hole_location.2 : Int) + d.2) = true ∧
              nb.node_state =
                swapCells cur.node_state cur.hole_location.1 cur.hole_location.2
                  ((cur.hole_location.1 : Int) + d.1).toNat
                  ((cur.hole_location.2 : Int) + d.2).toNat) := by
  intro ds
  induction ds with
  | nil =>
    intro _ p ns p2 ns2 h nb hnb
    rw [List.foldl_nil, Option.some.injEq, Prod.mk.injEq] at h
    obtain ⟨rfl, rfl⟩ := h
    exact Or.inl hnb
  | cons d ds ih =>
    intro hds p ns p2 ns2 h nb hnb
    rw [List.foldl_cons] at h
    have hd : d ∈ deltas := hds d (by simp)
    have hds' : ∀ x ∈ ds, x ∈ deltas := fun x hx => hds x (by simp [hx])
    rcases neighborStep_cases cur p ns d with hc | ⟨hc, _⟩ | ⟨nb0, h', hv, hinit, hc⟩
    · rw [hc, neighborStep_none] at h
      cases h
    · rw [hc] at h
      exact ih hds' p ns h nb hnb
    · rw [hc] at h
      rcases ih hds' _ _ h nb hnb with hmem | hprop
      · rw [List.mem_append, List.mem_singleton] at hmem
        rcases hmem with hmem | rfl
        · exact Or.inl hmem
        · right
          obtain ⟨hst, hpar, _, hhole⟩ := init_fields hinit
          refine ⟨hpar, ?_, ?_, d, hd, hv, hst⟩
          · exact ⟨cur.hole_location.1, cur.hole_location.2, d, (hole_spec hh).1,
              hd, (hole_spec hh).2, hv, by rw [hst]⟩
          · rw [hst]
            exact hhole
      · exact Or.inr hprop

/-- On valid data the expansion fold succeeds and produces exactly one
neighbor per in-bounds offset, in offset order. -/
theorem neighborStep_fold_valid (cur : PNode)
    (hh : get_hole_location cur.node_state = some cur.hole_location)
    (hvc : validBoard cur.node_state) :
    ∀ (ds : List (Int × Int)), (∀ d ∈ ds, d ∈ deltas) →
      ∀ (p : Problem) (ns : List PNode),
        (∀ t, t < 9 → (p.goal_positions t).isSome) →
        ∃ ns2,
          ds.foldl (neighborStep cur) (some (p, ns)) =
            some ({ p with nodes_generated := p.nodes_generated + ns2.length },
              ns ++ ns2) ∧
          ns2.map PNode.node_state =
            (ds.filter (fun d =>
              is_valid_move ((cur.hole_location.1 : Int) + d.1)
                ((cur.hole_location.2 : Int) + d.2))).map
              (fun d =>
                swapCells cur.node_state cur.hole_location.1 cur.hole_location.2
                  ((cur.hole_location.1 : Int) + d.1).toNat
                  ((cur.hole_location.2 : Int) + d.2).toNat) := by
  intro ds
  induction ds with
  | nil =>
    intro _ p ns _
    refine ⟨[], ?_, rfl⟩
    simp
  | cons d ds ih =>
    intro hds p ns hlook
    have hd : d ∈ deltas := hds d (by simp)
    have hds' : ∀ x ∈ ds, x ∈ deltas := fun x hx => hds x (by simp [hx])
    rw [List.foldl_cons]
    have hhi : (cur.hole_location.1, cur.hole_location.2) ∈ idxList := by
      have h0 := (hole_spec hh).1
      simpa using h0
    rcases hv : is_valid_move ((cur.hole_location.1 : Int) + d.1)
        ((cur.hole_location.2 : Int) + d.2) with _ | _
    · have hstep : neighborStep cur (some (p, ns)) d = some (p, ns) := by
        simp [neighborStep, hv]
      rw [hstep]
      obtain ⟨ns2, hfold, hmap⟩ := ih hds' p ns hlook
      refine ⟨ns2, hfold, ?_⟩
      rw [List.filter_cons, if_neg (by simp [hv])]
      exact hmap
    · -- in-bounds offset: heuristic and node construction both succeed
      have htgt := delta_target hd hv
      have hheu : (calculate_heuristic p
          (swapCells cur.node_state cur.hole_location.1 cur.hole_location.2
            ((cur.hole_location.1 : Int) + d.1).toNat
            ((cur.hole_location.2 : Int) + d.2).toNat)).isSome :=
        heuristic_isSome hlook (cells_swap_lt hvc hhi htgt.1)
      obtain ⟨h', hheu'⟩ := Option.isSome_iff_exists.mp hheu
      obtain ⟨hl, hhole⟩ :=
        hole_swap_some hvc.1 hhi htgt.1 (hole_spec hh).2
      have hinit : PuzzleNode.init
          (swapCells cur.node_state cur.hole_location.1 cur.hole_location.2
            ((cur.hole_location.1 : Int) + d.1).toNat
            ((cur.hole_location.2 : Int) + d.2).toNat) (some cur) h' =
          some (PNode.child
            (swapCells cur.node_state cur.hole_location.1 cur.hole_location.2
              ((cur.hole_location.1 : Int) + d.1).toNat
              ((cur.hole_location.2 : Int) + d.2).toNat) cur h' hl) := by
        unfold PuzzleNode.init
        rw [hhole]
        rfl
      have hstep : neighborStep cur (some (p, ns)) d =
          some ({ p with nodes_generated := p.nodes_generated + 1 },
            ns ++ [PNode.child
              (swapCells cur.node_state cur.hole_location.1 cur.hole_location.2
                ((cur.hole_location.1 : Int) + d.1).toNat
                ((cur.hole_location.2 : Int) + d.2).toNat) cur h' hl]) := by
        simp [neighborStep, hv, hheu', hinit]
      rw [hstep]
      obtain ⟨ns2, hfold, hmap⟩ := ih hds'
        { p with nodes_generated := p.nodes_generated + 1 }
        (ns ++ [PNode.child
          (swapCells cur.node_state cur.hole_location.1 cur.hole_location.2
            ((cur.hole_location.1 : Int) + d.1).toNat
            ((cur.hole_location.2 : Int) + d.2).toNat) cur h' hl])
        (fun t ht => hlook t ht)
      refine ⟨PNode.child
          (swapCells cur.node_state cur.hole_location.1 cur.hole_location.2
            ((cur.hole_location.1 : Int) + d.1).toNat
            ((cur.hole_location.2 : Int) + d.2).toNat) cur h' hl :: ns2, ?_, ?_⟩
      · rw [hfold, Option.some.injEq, Prod.mk.injEq]
        constructor
        · congr 1
          simp only [List.length_cons, List.length_append, List.length_singleton]
          omega
        · rw [List.append_assoc, List.singleton_append]
      · rw [List.filter_cons, if_pos (by simp [hv]), List.map_cons, List.map_cons]
        rw [hmap]
        rfl

theorem get_neighbors_sound {pr : Problem} {cur : PNode}
    (hh : get_hole_location cur.node_state = some cur.hole_location)
    {pr2 : Problem} {ns : List PNode}
    (h : get_neighbors pr cur = some (pr2, ns)) :
    ∀ nb ∈ ns, nb.parent_node = some cur ∧ isMove cur.node_state nb.node_state ∧
      get_hole_location nb.node_state = some nb.hole_location ∧
      ∃ d ∈ deltas,
        is_valid_move ((cur.hole_location.1 : Int) + d.1)
          ((cur.hole_location.2 : Int) + d.2) = true ∧
        nb.node_state =
          swapCells cur.node_state cur.hole_location.1 cur.hole_location.2
            ((cur.hole_location.1 : Int) + d.1).toNat
            ((cur.hole_location.2 : Int) + d.2).toNat := by
  intro nb hnb
  rcases neighborStep_sound cur hh deltas (fun d hd => hd) _ [] h nb hnb with h0 | h0
  · cases h0
  · exact h0

theorem get_neighbors_counters {pr : Problem} {cur : PNode} {pr2 : Problem}
    {ns : List PNode} (h : get_neighbors pr cur = some (pr2, ns)) :
    pr2 = { pr with
            nodes_expanded := pr.nodes_expanded + 1
            nodes_generated := pr.nodes_generated + ns.length } := by
  obtain ⟨h1, h2, h3, h4, h5, _⟩ := neighborStep_counters cur deltas _ [] h
  ext
  · rw [h2]
  · rw [h3]
  · rw [h4]
  · rw [h1]
  · simp only [List.length_nil, Nat.add_zero] at h5
    rw [h5]

theorem get_neighbors_valid {pr : Problem} {cur : PNode}
    (hh : get_hole_location cur.node_state = some cur.hole_location)
    (hvc : validBoard cur.node_state)
    (hlook : ∀ t, t < 9 → (pr.goal_positions t).isSome) :
    ∃ ns, get_neighbors pr cur =
        some ({ pr with
                nodes_expanded := pr.nodes_expanded + 1
                nodes_generated := pr.nodes_generated + ns.length }, ns) ∧
      ns.map PNode.node_state =
        (deltas.filter (fun d =>
          is_valid_move ((cur.hole_location.1 : Int) + d.1)
            ((cur.hole_location.2 : Int) + d.2))).map
          (fun d =>
            swapCells cur.node_state cur.hole_location.1 cur.hole_location.2
              ((cur.hole_location.1 : Int) + d.1).toNat
              ((cur.hole_location.2 : Int) + d.2).toNat) := by
  obtain ⟨ns2, hfold, hmap⟩ := neighborStep_fold_valid cur hh hvc deltas
    (fun d hd => hd) { pr with nodes_expanded := pr.nodes_expanded + 1 } [] hlook
  exact ⟨ns2, hfold, hmap⟩

/-- Number of in-bounds offsets, by hole position: 4 in the center, 2 in a
corner, 3 on an edge. -/
theorem filter_deltas_length {hi hj : Nat} (hm : (hi, hj) ∈ idxList) :
    2 ≤ (deltas.filter (fun d =>
        is_valid_move ((hi : Int) + d.1) ((hj : Int) + d.2))).length ∧
    (deltas.filter (fun d =>
        is_valid_move ((hi : Int) + d.1) ((hj : Int) + d.2))).length ≤ 4 ∧
    (deltas.filter (fun d =>
        is_valid_move ((hi : Int) + d.1) ((hj : Int) + d.2))).length =
      (if hi = 1 ∧ hj = 1 then 4
       else if (hi = 0 ∨ hi = 2) ∧ (hj = 0 ∨ hj = 2) then 2 else 3) := by
  fin_cases hm <;> decide

/-! ## Heap membership: every heap operation only rearranges elements -/

theorem getD_mem {l : List PNode} {n : Nat} (h : n < l.length) :
    l.getD n default ∈ l := by
  rw [List.getD_eq_getElem _ _ h]
  exact List.getElem_mem h

theorem mem_of_getLast?_some {l : List PNode} {a : PNode}
    (h : l.getLast? = some a) : a ∈ l := by
  rw [← List.head?_reverse] at h
  obtain ⟨ys, hys⟩ := List.head?_eq_some_iff.mp h
  have : a ∈ l.reverse := by rw [hys]; simp
  exact List.mem_reverse.mp this

theorem mem_siftdownLoop :
    ∀ (fuel : Nat) (heap : List PNode) (startpos pos : Nat) (item : PNode),
      pos < heap.length →
      ∀ x ∈ siftdownLoop fuel heap startpos pos item, x ∈ heap ∨ x = item := by
  intro fuel
  induction fuel with
  | zero =>
    intro heap s pos item _ x hx
    exact List.mem_or_eq_of_mem_set hx
  | succ fuel ih =>
    intro heap s pos item hpos x hx
    unfold siftdownLoop at hx
    by_cases hlt : s < pos
    · rw [if_pos hlt] at hx
      by_cases hcmp : nodeLT item (heap.getD ((pos - 1) / 2) default) = true
      · rw [if_pos hcmp] at hx
        have hplen : (pos - 1) / 2 < heap.length := lt_of_le_of_lt (by omega) hpos
        have hlen' : (pos - 1) / 2 < (heap.set pos (heap.getD ((pos - 1) / 2) default)).length := by
          rw [List.length_set]; exact hplen
        rcases ih _ s _ item hlen' x hx with h | h
        · rcases List.mem_or_eq_of_mem_set h with h' | h'
          · exact Or.inl h'
          · subst h'; exact Or.inl (getD_mem hplen)
        · exact Or.inr h
      · rw [if_neg hcmp] at hx
        exact List.mem_or_eq_of_mem_set hx
    · rw [if_neg hlt] at hx
      exact List.mem_or_eq_of_mem_set hx

theorem mem_siftdown {heap : List PNode} {startpos pos : Nat}
    (hpos : pos < heap.length) {x : PNode} (hx : x ∈ siftdown heap startpos pos) :
    x ∈ heap := by
  rcases mem_siftdownLoop (pos + 1) heap startpos pos _ hpos x hx with h | h
  · exact h
  · subst h; exact getD_mem hpos

theorem mem_siftupLoop :
    ∀ (fuel : Nat) (heap : List PNode) (startpos pos : Nat) (item : PNode),
      pos < heap.length →
      ∀ x ∈ siftupLoop fuel heap startpos pos item, x ∈ heap ∨ x = item := by
  intro fuel
  induction fuel with
  | zero =>
    intro heap s pos item hpos x hx
    have hlen : pos < (heap.set pos item).length := by
      rw [List.length_set]; exact hpos
    have hm := mem_siftdown hlen hx
    exact List.mem_or_eq_of_mem_set hm
  | succ fuel ih =>
    intro heap s pos item hpos x hx
    unfold siftupLoop at hx
    by_cases hchild : 2 * pos + 1 < heap.length
    · rw [if_pos hchild] at hx
      set cp := if (2 * pos + 1 + 1 < heap.length &&
          !nodeLT (heap.getD (2 * pos + 1) default)
            (heap.getD (2 * pos + 1 + 1) default)) = true
        then 2 * pos + 1 + 1 else 2 * pos + 1 with hcp
      have hcplen : cp < heap.length := by
        rw [hcp]
        split
        · next hcond =>
          rw [Bool.and_eq_true] at hcond
          exact of_decide_eq_true hcond.1
        · exact hchild
      have hlen' : cp < (heap.set pos (heap.getD cp default)).length := by
        rw [List.length_set]; exact hcplen
      rcases ih _ s _ item hlen' x hx with h | h
      · rcases List.mem_or_eq_of_mem_set h with h' | h'
        · exact Or.inl h'
        · subst h'; exact Or.inl (getD_mem hcplen)
      · exact Or.inr h
    · rw [if_neg hchild] at hx
      have hlen : pos < (heap.set pos item).length := by
        rw [List.length_set]; exact hpos
      have hm := mem_siftdown hlen hx
      exact List.mem_or_eq_of_mem_set hm

theorem mem_siftup {heap : List PNode} {pos : Nat} (hpos : pos < heap.length)
    {x : PNode} (hx : x ∈ siftup heap pos) : x ∈ heap := by
  rcases mem_siftupLoop (heap.length + 1) heap pos pos _ hpos x hx with h | h
  · exact h
  · subst h; exact getD_mem hpos

theorem mem_heappush {heap : List PNode} {item x : PNode}
    (hx : x ∈ heappush heap item) : x ∈ heap ∨ x = item := by
  unfold heappush at hx
  have hpos : (heap ++ [item]).length - 1 < (heap ++ [item]).length := by
    simp
  have := mem_siftdown hpos hx
  rcases List.mem_append.mp this with h | h
  · exact Or.inl h
  · exact Or.inr (by simpa using h)

theorem heappop_mem {heap : List PNode} {x : PNode} {rest : List PNode}
    (h : heappop heap = some (x, rest)) :
    x ∈ heap ∧ ∀ y ∈ rest, y ∈ heap := by
  unfold heappop at h
  rcases hlast : heap.getLast? with _ | lastelt
  · rw [hlast] at h; cases h
  · rw [hlast] at h
    dsimp only [] at h
    have hlmem : lastelt ∈ heap := mem_of_getLast?_some hlast
    by_cases hemp : heap.dropLast.isEmpty
    · rw [if_pos hemp] at h
      rw [Option.some.injEq, Prod.mk.injEq] at h
      obtain ⟨rfl, rfl⟩ := h
      constructor
      · exact hlmem
      · intro y hy
        rw [List.isEmpty_iff.mp hemp] at hy
        cases hy
    · rw [if_neg hemp] at h
      rw [Option.some.injEq, Prod.mk.injEq] at h
      obtain ⟨rfl, rfl⟩ := h
      have hdl : 0 < heap.dropLast.length := by
        rcases hd : heap.dropLast with _ | ⟨a, l⟩
        · rw [hd] at hemp; simp at hemp
        · simp [hd]
      constructor
      · have := getD_mem hdl
        exact (List.dropLast_sublist heap).mem this
      · intro y hy
        have hlen : (0 : Nat) < (heap.dropLast.set 0 lastelt).length := by
          rw [List.length_set]; exact hdl
        have := mem_siftup hlen hy
        rcases List.mem_or_eq_of_mem_set this with h' | h'
        · exact (List.dropLast_sublist heap).mem h'
        · subst h'; exact hlmem

theorem mem_foldl_push (explored : List Board) :
    ∀ (ns : List PNode) (f : List PNode) (x : PNode),
      x ∈ ns.foldl
        (fun f nb => if nb.node_state ∈ explored then f else heappush f nb) f →
      x ∈ f ∨ x ∈ ns := by
  intro ns
  induction ns with
  | nil => intro f x hx; exact Or.inl hx
  | cons nb ns ih =>
    intro f x hx
    rw [List.foldl_cons] at hx
    rcases ih _ x hx with h | h
    · by_cases hmem : nb.node_state ∈ explored
      · rw [if_pos hmem] at h
        exact Or.inl h
      · rw [if_neg hmem] at h
        rcases mem_heappush h with h' | h'
        · exact Or.inl h'
        · subst h'; exact Or.inr (by simp)
    · exact Or.inr (by simp [h])

/-! ## Well-formed search nodes and reconstructed paths -/

theorem goodNode_hole {s0 : Board} {n : PNode} (h : GoodNode s0 n) :
    get_hole_location n.node_state = some n.hole_location := by
  cases h <;> assumption

theorem chainTo_cons (n : PNode) : ∃ l, chainTo n = n :: l := by
  cases n <;> exact ⟨_, rfl⟩

theorem construct_path_getLast (n : PNode) :
    (construct_path n).getLast? = some n := by
  unfold construct_path
  rw [List.getLast?_reverse]
  obtain ⟨l, hl⟩ := chainTo_cons n
  rw [hl]
  rfl

theorem construct_path_child (s : Board) (p : PNode) (h : Nat) (hl : Nat × Nat) :
    construct_path (.child s p h hl) = construct_path p ++ [.child s p h hl] := by
  unfold construct_path
  rw [show chainTo (.child s p h hl) = .child s p h hl :: chainTo p from rfl,
    List.reverse_cons]

theorem construct_path_length (n : PNode) :
    (construct_path n).length = n.g + 1 := by
  induction n with
  | root s h hl => rfl
  | child s p h hl ih =>
    rw [construct_path_child, List.length_append, ih]
    rfl

/-- `g` along a reconstructed path is the position in the path. -/
theorem construct_path_g (n : PNode) :
    ∀ k (hk : k < (construct_path n).length),
      ((construct_path n).get ⟨k, hk⟩).g = k := by
  induction n with
  | root s h hl =>
    intro k hk
    have : k = 0 := by
      have : (construct_path (PNode.root s h hl)).length = 1 := rfl
      omega
    subst this
    rfl
  | child s p h hl ih =>
    intro k hk
    have he := construct_path_child s p h hl
    rw [List.get_of_eq he ⟨k, hk⟩, List.get_eq_getElem]
    have hk2 : k < (construct_path p ++ [PNode.child s p h hl]).length := by
      rw [← he]; exact hk
    by_cases hlt : k < (construct_path p).length
    · rw [List.getElem_append_left hlt]
      have := ih k hlt
      rw [List.get_eq_getElem] at this
      exact this
    · have hke : k = (construct_path p).length := by
        rw [List.length_append, List.length_singleton] at hk2
        omega
      rw [List.getElem_append_right (le_of_eq hke.symm), List.getElem_singleton]
      show (PNode.child s p h hl).g = k
      rw [hke, construct_path_length]
      rfl

theorem construct_path_head {s0 : Board} {n : PNode} (h : GoodNode s0 n) :
    ∃ r l, construct_path n = r :: l ∧ r.node_state = s0 := by
  induction h with
  | root s h hl hs hh => exact ⟨_, [], rfl, hs⟩
  | step s p h hl hp hm hh ih =>
    obtain ⟨r, l, hrl, hr⟩ := ih
    refine ⟨r, l ++ [.child s p h hl], ?_, hr⟩
    rw [construct_path_child, hrl]
    rfl

theorem construct_path_chain {s0 : Board} {n : PNode} (h : GoodNode s0 n) :
    List.Chain' (fun a b => isMove a.node_state b.node_state)
      (construct_path n) := by
  induction h with
  | root s h hl _ _ => exact List.chain'_singleton _
  | step s p h hl hp hm hh ih =>
    rw [construct_path_child, List.chain'_append]
    refine ⟨ih, List.chain'_singleton _, ?_⟩
    intro x hx y hy
    rw [construct_path_getLast, Option.mem_def, Option.some.injEq] at hx
    rw [List.head?_cons, Option.mem_def, Option.some.injEq] at hy
    subst hx
    subst hy
    exact hm

theorem neighbors_good {s0 : Board} {pr : Problem} {cur : PNode} {pr2 : Problem}
    {ns : List PNode} (hg : GoodNode s0 cur)
    (h : get_neighbors pr cur = some (pr2, ns)) : ∀ nb ∈ ns, GoodNode s0 nb := by
  intro nb hnb
  obtain ⟨hpar, hmove, hhole, _⟩ := get_neighbors_sound (goodNode_hole hg) h nb hnb
  cases nb with
  | root s h' hl =>
    rw [show (PNode.root s h' hl).parent_node = none from rfl] at hpar
    cases hpar
  | child s p h' hl =>
    have hp : p = cur := by
      rw [show (PNode.child s p h' hl).parent_node = some p from rfl,
        Option.some.injEq] at hpar
      exact hpar
    subst hp
    exact GoodNode.step s p h' hl hg hmove hhole

/-! ## The search loop: invariants and trace -/

/-- On success the returned path is the reconstruction of a well-formed
node holding the goal state; the goal board of the problem never changes
along the loop. -/
theorem a_star_loop_success {s0 : Board} :
    ∀ (fuel : Nat) (pr : Problem) (frontier : List PNode)
      (explored : List Board) (maxf : Nat) {res : Option (List PNode)}
      {pr2 : Problem} {m2 : Nat},
      a_star_loop fuel pr frontier explored maxf = some (res, pr2, m2) →
      (∀ n ∈ frontier, GoodNode s0 n) →
      pr2.goal_state = pr.goal_state ∧
      (∀ path, res = some path →
        ∃ gn, GoodNode s0 gn ∧ path = construct_path gn ∧
          gn.node_state = pr.goal_state) := by
  intro fuel
  induction fuel with
  | zero =>
    intro pr frontier explored maxf res pr2 m2 h _
    cases h
  | succ fuel ih =>
    intro pr frontier explored maxf res pr2 m2 h hinv
    unfold a_star_loop at h
    by_cases hemp : frontier.isEmpty
    · rw [if_pos hemp] at h
      rw [Option.some.injEq, Prod.mk.injEq] at h
      obtain ⟨hres, h2⟩ := h
      rw [Prod.mk.injEq] at h2
      obtain ⟨rfl, _⟩ := h2
      subst hres
      exact ⟨rfl, fun path hp => by cases hp⟩
    · rw [if_neg hemp] at h
      dsimp only [] at h
      rcases hpop : heappop frontier with _ | ⟨current, frontier'⟩
      · rw [hpop] at h
        cases h
      · rw [hpop] at h
        dsimp only [] at h
        have hcur : GoodNode s0 current := hinv current (heappop_mem hpop).1
        by_cases hgoal : current.node_state = pr.goal_state
        · rw [if_pos hgoal] at h
          rw [Option.some.injEq, Prod.mk.injEq] at h
          obtain ⟨hres, h2⟩ := h
          rw [Prod.mk.injEq] at h2
          obtain ⟨rfl, _⟩ := h2
          refine ⟨rfl, fun path hp => ?_⟩
          rw [← hres, Option.some.injEq] at hp
          exact ⟨current, hcur, hp.symm, hgoal⟩
        · rw [if_neg hgoal] at h
          rcases hgn : get_neighbors pr current with _ | ⟨pr', ns⟩
          · rw [hgn] at h
            cases h
          · rw [hgn] at h
            have hnb := neighbors_good hcur hgn
            have hinv' : ∀ n ∈ ns.foldl
                (fun f nb =>
                  if nb.node_state ∈ current.node_state :: explored then f
                  else heappush f nb) frontier', GoodNode s0 n := by
              intro n hn
              rcases mem_foldl_push _ ns frontier' n hn with h' | h'
              · exact hinv n ((heappop_mem hpop).2 n h')
              · exact hnb n h'
            obtain ⟨hgs, hres⟩ := ih pr' _ _ _ h hinv'
            have hframe : pr'.goal_state = pr.goal_state := by
              rw [get_neighbors_counters hgn]
            refine ⟨hgs.trans hframe, fun path hp => ?_⟩
            obtain ⟨gn, h1, h2, h3⟩ := hres path hp
            exact ⟨gn, h1, h2, h3.trans hframe⟩

/-- The instrumented loop projects onto the plain loop. -/
theorem a_star_trace_agree :
    ∀ (fuel : Nat) (pr : Problem) (frontier : List PNode)
      (explored : List Board) (maxf : Nat),
      a_star_loop fuel pr frontier explored maxf =
        (a_star_trace fuel pr frontier explored maxf).map (fun r => r.2.2) := by
  intro fuel
  induction fuel with
  | zero => intro pr f e m; rfl
  | succ fuel ih =>
    intro pr f e m
    unfold a_star_loop a_star_trace
    by_cases hemp : f.isEmpty
    · rw [if_pos hemp, if_pos hemp]
      rfl
    · rw [if_neg hemp, if_neg hemp]
      dsimp only []
      rcases hpop : heappop f with _ | ⟨current, f'⟩
      · rfl
      · dsimp only []
        by_cases hgoal : current.node_state = pr.goal_state
        · rw [if_pos hgoal, if_pos hgoal]
          rfl
        · rw [if_neg hgoal, if_neg hgoal]
          rcases hgn : get_neighbors pr current with _ | ⟨pr', ns⟩
          · rfl
          · dsimp only []
            rw [ih]
            cases a_star_trace fuel pr' (ns.foldl
              (fun f nb =>
                if nb.node_state ∈ current.node_state :: e then f
                else heappush f nb) f') (current.node_state :: e)
              (max m f.length) <;> rfl

/-- Final counters of a run: `nodes_expanded` advances by one per recorded
expansion, `nodes_generated` by the recorded neighbor counts, and no other
`Problem` field ever changes. -/
theorem a_star_trace_counters :
    ∀ (fuel : Nat) (pr : Problem) (frontier : List PNode)
      (explored : List Board) (maxf : Nat) {pops : List Board}
      {gens : List Nat} {res : Option (List PNode)} {pr2 : Problem} {m2 : Nat},
      a_star_trace fuel pr frontier explored maxf =
        some (pops, gens, res, pr2, m2) →
      pr2.nodes_expanded = pr.nodes_expanded + gens.length ∧
      pr2.nodes_generated = pr.nodes_generated + gens.sum ∧
      pr2.goal_state = pr.goal_state ∧
      pr2.use_manhattan = pr.use_manhattan ∧
      pr2.goal_positions = pr.goal_positions := by
  intro fuel
  induction fuel with
  | zero =>
    intro pr f e m pops gens res pr2 m2 h
    cases h
  | succ fuel ih =>
    intro pr f e m pops gens res pr2 m2 h
    unfold a_star_trace at h
    by_cases hemp : f.isEmpty
    · rw [if_pos hemp] at h
      rw [Option.some.injEq] at h
      obtain ⟨rfl, rfl, _, rfl, _⟩ := h
      exact ⟨rfl, rfl, rfl, rfl, rfl⟩
    · rw [if_neg hemp] at h
      dsimp only [] at h
      rcases hpop : heappop f with _ | ⟨current, f'⟩
      · rw [hpop] at h
        cases h
      · rw [hpop] at h
        dsimp only [] at h
        by_cases hgoal : current.node_state = pr.goal_state
        · rw [if_pos hgoal] at h
          rw [Option.some.injEq] at h
          obtain ⟨rfl, rfl, _, rfl, _⟩ := h
          exact ⟨rfl, rfl, rfl, rfl, rfl⟩
        · rw [if_neg hgoal] at h
          rcases hgn : get_neighbors pr current with _ | ⟨pr', ns⟩
          · rw [hgn] at h
            cases h
          · rw [hgn] at h
            dsimp only [] at h
            rw [Option.map_eq_some'] at h
            obtain ⟨⟨pops', gens', res', pr2', m2'⟩, hrec, hproj⟩ := h
            dsimp only [] at hproj
            rw [Prod.mk.injEq] at hproj
            obtain ⟨hpops, hproj⟩ := hproj
            rw [Prod.mk.injEq] at hproj
            obtain ⟨hgens, hrest⟩ := hproj
            rw [Prod.mk.injEq] at hrest
            obtain ⟨hres, hrest⟩ := hrest
            rw [Prod.mk.injEq] at hrest
            obtain ⟨hpr2, hm2⟩ := hrest
            obtain ⟨e1, e2, e3, e4, e5⟩ := ih pr' _ _ _ hrec
            have hc := get_neighbors_counters hgn
            subst hpops hgens hres hpr2
            have hcx : pr'.nodes_expanded = pr.nodes_expanded + 1 := by
              rw [hc]
            have hcg : pr'.nodes_generated = pr.nodes_generated + ns.length := by
              rw [hc]
            have hcs : pr'.goal_state = pr.goal_state := by rw [hc]
            have hcm : pr'.use_manhattan = pr.use_manhattan := by rw [hc]
            have hcp : pr'.goal_positions = pr.goal_positions := by rw [hc]
            refine ⟨?_, ?_, e3.trans hcs, e4.trans hcm, e5.trans hcp⟩
            · rw [e1, hcx, List.length_cons]
              omega
            · rw [e2, hcg, List.sum_cons]
              omega

/-- A run that ends in `None` never popped a goal-state node. -/
theorem a_star_trace_nosol :
    ∀ (fuel : Nat) (pr : Problem) (frontier : List PNode)
      (explored : List Board) (maxf : Nat) {pops : List Board}
      {gens : List Nat} {pr2 : Problem} {m2 : Nat},
      a_star_trace fuel pr frontier explored maxf =
        some (pops, gens, none, pr2, m2) →
      ∀ s ∈ pops, s ≠ pr.goal_state := by
  intro fuel
  induction fuel with
  | zero =>
    intro pr f e m pops gens pr2 m2 h
    cases h
  | succ fuel ih =>
    intro pr f e m pops gens pr2 m2 h
    unfold a_star_trace at h
    by_cases hemp : f.isEmpty
    · rw [if_pos hemp] at h
      rw [Option.some.injEq] at h
      obtain ⟨rfl, _⟩ := h
      intro s hs
      cases hs
    · rw [if_neg hemp] at h
      dsimp only [] at h
      rcases hpop : heappop f with _ | ⟨current, f'⟩
      · rw [hpop] at h
        cases h
      · rw [hpop] at h
        dsimp only [] at h
        by_cases hgoal : current.node_state = pr.goal_state
        · rw [if_pos hgoal] at h
          rw [Option.some.injEq] at h
          obtain ⟨_, _, hcontra, _⟩ := h
        · rw [if_neg hgoal] at h
          rcases hgn : get_neighbors pr current with _ | ⟨pr', ns⟩
          · rw [hgn] at h
            cases h
          · rw [hgn] at h
            dsimp only [] at h
            rw [Option.map_eq_some'] at h
            obtain ⟨⟨pops', gens', res', pr2', m2'⟩, hrec, hproj⟩ := h
            dsimp only [] at hproj
            rw [Prod.mk.injEq] at hproj
            obtain ⟨hpops, hproj⟩ := hproj
            rw [Prod.mk.injEq] at hproj
            obtain ⟨_, hrest⟩ := hproj
            rw [Prod.mk.injEq] at hrest
            obtain ⟨hres, _⟩ := hrest
            subst hres
            have hframe : pr'.goal_state = pr.goal_state := by
              rw [get_neighbors_counters hgn]
            intro s hs
            rw [← hpops] at hs
            rcases List.mem_cons.mp hs with rfl | hmem
            · exact hgoal
            · have := ih pr' _ _ _ hrec s hmem
              rwa [hframe] at this

/-- C10: constructing a `Problem` with the goal omitted or `None` silently
defaults the goal to `[[1,2,3],[4,5,6],[7,8,0]]`, and omitting the
heuristic choice defaults to Manhattan (`use_manhattan = True`).
`Problem.init` carries the Python parameter defaults as Lean default
arguments, so the bare `Problem.init` is the both-arguments-omitted call. -/
theorem default_goal_and_heuristic :
    Problem.init = Problem.init none true ∧
    (Problem.init none true).goal_state = [[1,2,3],[4,5,6],[7,8,0]] ∧
    (Problem.init none true).use_manhattan = true ∧
    (Problem.init none false).goal_state = [[1,2,3],[4,5,6],[7,8,0]] :=
  ⟨rfl, rfl, rfl, rfl⟩

/-- C1 counterexample: the constructor does NOT fail on a goal board that
is not a permutation of 0–8 — contrary to the spec's `configureSpec` it
returns a usable configuration built from the invalid board (digit
validation lives only in the CLI helper `get_puzzle_board_from_user`,
outside the constructor). -/
theorem configure_accepts_invalid_goal :
    ¬ validBoard [[1,1,1],[1,1,1],[1,1,1]] ∧
    configureSpec [[1,1,1],[1,1,1],[1,1,1]] true =
      Except.error ConfigError.invalidGoalState ∧
    (Problem.init (some [[1,1,1],[1,1,1],[1,1,1]]) true).goal_state =
      [[1,1,1],[1,1,1],[1,1,1]] ∧
    (Problem.init (some [[1,1,1],[1,1,1],[1,1,1]]) true).goal_positions 1 =
      some (2, 2) := by
  refine ⟨by decide, ?_, rfl, by decide⟩
  rw [configureSpec, if_neg (by decide)]

/-- C1 (amended): construction never fails — for every goal board the
constructor returns a configuration — and on every valid goal board (a
permutation of 0–8) the configuration's `goal_positions` index maps each
tile value to its (row, col) in the goal. -/
theorem configure_never_fails (g : Board) (um : Bool) (hg : validBoard g) :
    (Problem.init (some g) um).goal_state = g ∧
    ∀ t i j, i < 3 → j < 3 → cell g i j = t →
      (Problem.init (some g) um).goal_positions t = some (i, j) := by
  constructor
  · exact init_goal_state hg.1 um
  · intro t i j hi hj hc
    exact goal_positions_eq_some hg um (mem_idxList.mpr ⟨hi, hj⟩) hc

/-- Witness for C1's amended theorem at the standard goal board. -/
theorem configure_never_fails_witness :
    validBoard [[1,2,3],[4,5,6],[7,8,0]] ∧
    (Problem.init (some [[1,2,3],[4,5,6],[7,8,0]]) true).goal_positions 8 =
      some (2, 1) :=
  ⟨by decide,
    (configure_never_fails [[1,2,3],[4,5,6],[7,8,0]] true (by decide)).2
      8 2 1 (by decide) (by decide) (by decide)⟩

/-- C7: on valid boards, `calculate_misplaced_tiles` returns exactly the
number of non-hole tiles (1–8) whose current position differs from their
goal position (`misplacedSpec`); the value is a natural number, hence
non-negative. -/
theorem misplaced_tiles_spec (g s : Board) (um : Bool)
    (hg : validBoard g) (hs : validBoard s) :
    calculate_misplaced_tiles (Problem.init (some g) um) s =
      some (misplacedSpec g s) := by
  have h := misplaced_fold hg hs um (List.range' 1 8) 0 (fun t ht => by
    have := List.mem_range'_1.mp ht
    omega)
  rw [Nat.zero_add] at h
  exact h

/-- Witness for C7: one misplaced tile in the depth-1 instance. -/
theorem misplaced_tiles_spec_witness :
    validBoard [[1,2,3],[4,5,6],[7,8,0]] ∧
    validBoard [[1,2,3],[4,5,6],[7,0,8]] ∧
    calculate_misplaced_tiles
      (Problem.init (some [[1,2,3],[4,5,6],[7,8,0]]) false)
      [[1,2,3],[4,5,6],[7,0,8]] =
      some (misplacedSpec [[1,2,3],[4,5,6],[7,8,0]] [[1,2,3],[4,5,6],[7,0,8]]) ∧
    misplacedSpec [[1,2,3],[4,5,6],[7,8,0]] [[1,2,3],[4,5,6],[7,0,8]] = 1 :=
  ⟨by decide, by decide,
    misplaced_tiles_spec [[1,2,3],[4,5,6],[7,8,0]] [[1,2,3],[4,5,6],[7,0,8]]
      false (by decide) (by decide), by decide⟩

/-- C8: a board with no zero among the nine scanned cells makes the hole
lookup, and hence node construction, fail fast (the `ValueError` of
`get_hole_location`, modelled as `none`); a board with a zero cell always
yields a node whose stored hole location is in bounds and holds `0`.
Because construction fails first, `get_neighbors` is never reached with a
holeless state, so it cannot silently return an empty neighbor list. -/
theorem missing_hole_fail_fast (b : Board) (par : Option PNode) (h0 : Nat) :
    ((∀ p ∈ idxList, cell b p.1 p.2 ≠ 0) →
      get_hole_location b = none ∧ PuzzleNode.init b par h0 = none) ∧
    (∀ i j, i < 3 → j < 3 → cell b i j = 0 →
      ∃ nd, PuzzleNode.init b par h0 = some nd ∧
        get_hole_location b = some nd.hole_location ∧
        nd.hole_location.1 < 3 ∧ nd.hole_location.2 < 3 ∧
        cell b nd.hole_location.1 nd.hole_location.2 = 0) := by
  constructor
  · intro hno
    have hnone : get_hole_location b = none := by
      show idxList.find? (fun p => cell b p.1 p.2 == 0) = none
      rw [List.find?_eq_none]
      intro p hp
      simpa using hno p hp
    refine ⟨hnone, ?_⟩
    unfold PuzzleNode.init
    rw [hnone]
    rfl
  · intro i j hi hj hc
    have hsome : (idxList.find? (fun p => cell b p.1 p.2 == 0)).isSome := by
      rw [List.find?_isSome]
      exact ⟨(i, j), mem_idxList.mpr ⟨hi, hj⟩, by simpa using hc⟩
    obtain ⟨hl, hhl⟩ := Option.isSome_iff_exists.mp hsome
    have hhl' : get_hole_location b = some hl := hhl
    obtain ⟨hmem, hzero⟩ := hole_spec hhl'
    obtain ⟨x, y⟩ := hl
    have hxy := mem_idxList.mp hmem
    refine ⟨match par with
      | none => PNode.root b h0 (x, y)
      | some p => PNode.child b p h0 (x, y), ?_, ?_, ?_, ?_, ?_⟩
    · unfold PuzzleNode.init
      rw [hhl']
      cases par <;> rfl
    · cases par <;> exact hhl'
    · cases par <;> exact hxy.1
    · cases par <;> exact hxy.2
    · cases par <;> exact hzero

/-- Witness for C8: a holeless board fails, a board with a hole succeeds. -/
theorem missing_hole_fail_fast_witness :
    (get_hole_location [[1,2,3],[4,5,6],[7,8,9]] = none ∧
      PuzzleNode.init [[1,2,3],[4,5,6],[7,8,9]] none 0 = none) ∧
    ∃ nd, PuzzleNode.init [[1,2,3],[4,5,0],[7,8,6]] none 0 = some nd ∧
      get_hole_location [[1,2,3],[4,5,0],[7,8,6]] = some nd.hole_location ∧
      nd.hole_location.1 < 3 ∧ nd.hole_location.2 < 3 ∧
      cell [[1,2,3],[4,5,0],[7,8,6]] nd.hole_location.1 nd.hole_location.2 = 0 :=
  ⟨(missing_hole_fail_fast [[1,2,3],[4,5,6],[7,8,9]] none 0).1 (by decide),
   (missing_hole_fail_fast [[1,2,3],[4,5,0],[7,8,6]] none 0).2
     1 2 (by decide) (by decide) (by decide)⟩

/-- C4: on a configuration built from a valid goal, expanding a node whose
board is valid and whose stored hole location is the computed one yields
between 2 and 4 neighbors (2 for a corner hole, 3 for an edge, 4 for the
center); the neighbor states are exactly the adjacent swaps for the
in-bounds candidate offsets, in the source's offset order down `(1,0)`,
up `(-1,0)`, right `(0,1)`, left `(0,-1)` with out-of-bounds candidates
discarded; and every neighbor differs from the parent by one legal move. -/
theorem expansion_rule_neighbors (g : Board) (um : Bool) (nd : PNode)
    (hg : validBoard g) (hs : validBoard nd.node_state)
    (hh : get_hole_location nd.node_state = some nd.hole_location) :
    ∃ ns, get_neighbors (Problem.init (some g) um) nd =
        some ({ Problem.init (some g) um with
                nodes_expanded := (Problem.init (some g) um).nodes_expanded + 1
                nodes_generated :=
                  (Problem.init (some g) um).nodes_generated + ns.length }, ns) ∧
      2 ≤ ns.length ∧ ns.length ≤ 4 ∧
      ns.length = (if nd.hole_location.1 = 1 ∧ nd.hole_location.2 = 1 then 4
        else if (nd.hole_location.1 = 0 ∨ nd.hole_location.1 = 2) ∧
            (nd.hole_location.2 = 0 ∨ nd.hole_location.2 = 2) then 2 else 3) ∧
      ns.map PNode.node_state =
        (deltas.filter (fun d =>
          is_valid_move ((nd.hole_location.1 : Int) + d.1)
            ((nd.hole_location.2 : Int) + d.2))).map
          (fun d =>
            swapCells nd.node_state nd.hole_location.1 nd.hole_location.2
              ((nd.hole_location.1 : Int) + d.1).toNat
              ((nd.hole_location.2 : Int) + d.2).toNat) ∧
      ∀ nb ∈ ns, isMove nd.node_state nb.node_state := by
  have hlook : ∀ t, t < 9 →
      ((Problem.init (some g) um).goal_positions t).isSome :=
    fun t ht => goal_positions_isSome hg um ht
  obtain ⟨ns, hgn, hmap⟩ := get_neighbors_valid hh hs hlook
  have hhm : (nd.hole_location.1, nd.hole_location.2) ∈ idxList := by
    have h1 := (hole_spec hh).1
    simpa using h1
  obtain ⟨hge2, hle4, hcount⟩ := filter_deltas_length hhm
  have hlen : ns.length = (deltas.filter (fun d =>
      is_valid_move ((nd.hole_location.1 : Int) + d.1)
        ((nd.hole_location.2 : Int) + d.2))).length := by
    have := congrArg List.length hmap
    simpa using this
  refine ⟨ns, hgn, ?_, ?_, ?_, hmap, ?_⟩
  · omega
  · omega
  · rw [hlen]
    exact hcount
  · intro nb hnb
    exact (get_neighbors_sound hh hgn nb hnb).2.1

/-- Witness for C4 at an edge hole (3 neighbors). -/
theorem expansion_rule_neighbors_witness :
    validBoard [[1,2,3],[4,5,6],[7,8,0]] ∧
    validBoard [[1,2,3],[4,5,6],[7,0,8]] ∧
    ∃ ns, get_neighbors (Problem.init (some [[1,2,3],[4,5,6],[7,8,0]]) true)
        (PNode.root [[1,2,3],[4,5,6],[7,0,8]] 1 (2, 1)) =
        some ({ Problem.init (some [[1,2,3],[4,5,6],[7,8,0]]) true with
                nodes_expanded :=
                  (Problem.init (some [[1,2,3],[4,5,6],[7,8,0]]) true).nodes_expanded + 1
                nodes_generated :=
                  (Problem.init (some [[1,2,3],[4,5,6],[7,8,0]]) true).nodes_generated
                    + ns.length }, ns) ∧
      2 ≤ ns.length ∧ ns.length ≤ 4 ∧
      ns.length = (if ((2 : Nat), (1 : Nat)).1 = 1 ∧ ((2 : Nat), (1 : Nat)).2 = 1 then 4
        else if (((2 : Nat), (1 : Nat)).1 = 0 ∨ ((2 : Nat), (1 : Nat)).1 = 2) ∧
            (((2 : Nat), (1 : Nat)).2 = 0 ∨ ((2 : Nat), (1 : Nat)).2 = 2) then 2 else 3) ∧
      ns.map PNode.node_state =
        (deltas.filter (fun d =>
          is_valid_move (((2 : Nat) : Int) + d.1) (((1 : Nat) : Int) + d.2))).map
          (fun d =>
            swapCells [[1,2,3],[4,5,6],[7,0,8]] 2 1
              (((2 : Nat) : Int) + d.1).toNat (((1 : Nat) : Int) + d.2).toNat) ∧
      ∀ nb ∈ ns, isMove [[1,2,3],[4,5,6],[7,0,8]] nb.node_state :=
  ⟨by decide, by decide,
    expansion_rule_neighbors [[1,2,3],[4,5,6],[7,8,0]] true
      (PNode.root [[1,2,3],[4,5,6],[7,0,8]] 1 (2, 1))
      (by decide) (by decide) (by decide)⟩

/-- C5: `get_neighbors` bumps `nodes_expanded` by exactly one per call and
`nodes_generated` by exactly the number of neighbors produced, touching no
other field; along a whole search run, the final counters differ from the
initial ones by exactly one per expansion performed and by the sum of the
per-expansion neighbor counts — no other operation of the search mutates
them, and the other problem fields are untouched. -/
theorem expansion_counters :
    (∀ (pr : Problem) (cur : PNode) (pr2 : Problem) (ns : List PNode),
      get_neighbors pr cur = some (pr2, ns) →
      pr2 = { pr with
              nodes_expanded := pr.nodes_expanded + 1
              nodes_generated := pr.nodes_generated + ns.length }) ∧
    (∀ (fuel : Nat) (pr : Problem) (frontier : List PNode)
      (explored : List Board) (maxf : Nat) (pops : List Board)
      (gens : List Nat) (res : Option (List PNode)) (pr2 : Problem) (m2 : Nat),
      a_star_trace fuel pr frontier explored maxf =
        some (pops, gens, res, pr2, m2) →
      pr2.nodes_expanded = pr.nodes_expanded + gens.length ∧
      pr2.nodes_generated = pr.nodes_generated + gens.sum ∧
      pr2.goal_state = pr.goal_state ∧
      pr2.use_manhattan = pr.use_manhattan ∧
      pr2.goal_positions = pr.goal_positions) :=
  ⟨fun _ _ _ _ h => get_neighbors_counters h,
   fun fuel pr f e m _ _ _ _ _ h => a_star_trace_counters fuel pr f e m h⟩

/-- C9: expanding a node leaves the expanded node's board intact — every
neighbor's parent reference is the original node, unchanged, and every
neighbor carries a fresh board different from the parent's (the copied
rows are swapped, and on a valid board the swap always changes the
board). In the pure embedding the no-mutation part is structural: the
expanded node is untouched by construction. -/
theorem expansion_preserves_parent_state (pr : Problem) (cur : PNode)
    (pr2 : Problem) (ns : List PNode) (hvc : validBoard cur.node_state)
    (hh : get_hole_location cur.node_state = some cur.hole_location)
    (h : get_neighbors pr cur = some (pr2, ns)) :
    ∀ nb ∈ ns, nb.parent_node = some cur ∧ nb.node_state ≠ cur.node_state := by
  intro nb hnb
  obtain ⟨hpar, _, _, d, hd, hv, hst⟩ := get_neighbors_sound hh h nb hnb
  refine ⟨hpar, ?_⟩
  rw [hst]
  intro heq
  have hhm : (cur.hole_location.1, cur.hole_location.2) ∈ idxList := by
    have h1 := (hole_spec hh).1
    simpa using h1
  obtain ⟨htm, htne⟩ := delta_target hd hv
  have hz := (hole_spec hh).2
  have hcell : cell (swapCells cur.node_state cur.hole_location.1
      cur.hole_location.2 ((cur.hole_location.1 : Int) + d.1).toNat
      ((cur.hole_location.2 : Int) + d.2).toNat)
      ((cur.hole_location.1 : Int) + d.1).toNat
      ((cur.hole_location.2 : Int) + d.2).toNat =
      cell cur.node_state cur.hole_location.1 cur.hole_location.2 := by
    rw [cell_swapCells hvc.1 hhm htm htm, if_pos ⟨rfl, rfl⟩]
  rw [heq] at hcell
  have := validBoard_cell_inj hvc htm hhm (hcell.trans hz |>.trans hz.symm)
  exact htne this

/-- Witness for C9 at the depth-1 instance. -/
theorem expansion_preserves_parent_state_witness :
    validBoard [[1,2,3],[4,5,6],[7,0,8]] ∧
    ∃ pr2 ns,
      get_neighbors (Problem.init (some [[1,2,3],[4,5,6],[7,8,0]]) true)
        (PNode.root [[1,2,3],[4,5,6],[7,0,8]] 1 (2, 1)) = some (pr2, ns) ∧
      ∀ nb ∈ ns,
        nb.parent_node = some (PNode.root [[1,2,3],[4,5,6],[7,0,8]] 1 (2, 1)) ∧
        nb.node_state ≠ [[1,2,3],[4,5,6],[7,0,8]] := by
  refine ⟨by decide, ?_⟩
  rcases hgn : get_neighbors (Problem.init (some [[1,2,3],[4,5,6],[7,8,0]]) true)
      (PNode.root [[1,2,3],[4,5,6],[7,0,8]] 1 (2, 1)) with _ | ⟨pr2, ns⟩
  · exact absurd (congrArg Option.isSome hgn) (by decide)
  · exact ⟨pr2, ns,
      rfl, expansion_preserves_parent_state _ _ pr2 ns (by decide) (by decide) hgn⟩

theorem heapify_singleton (x : PNode) : heapify [x] = [x] := by
  simp [heapify]

/-- C3: every path returned by the solver starts at the initial state, ends
at the goal state, steps through single legal tile moves, and carries
`g = k` at position `k` (so its length is the solution depth plus one). -/
theorem solution_path_law (pr : Problem) (s0 : Board) (fuel : Nat)
    (path : List PNode) (pr2 : Problem)
    (h : a_star_solve pr s0 fuel = some (some path, pr2)) :
    (∃ r l, path = r :: l ∧ r.node_state = s0) ∧
    (∃ gn, path.getLast? = some gn ∧ gn.node_state = pr.goal_state) ∧
    List.Chain' (fun a b => isMove a.node_state b.node_state) path ∧
    ∀ k (hk : k < path.length), (path.get ⟨k, hk⟩).g = k := by
  unfold a_star_solve at h
  rcases hinit : PuzzleNode.init s0 none 0 with _ | node0
  · rw [hinit] at h
    cases h
  · rw [hinit] at h
    rcases hheu : calculate_heuristic pr s0 with _ | h0
    · rw [hheu] at h
      cases h
    · rw [hheu] at h
      dsimp only [] at h
      rw [Option.map_eq_some'] at h
      obtain ⟨⟨res, pr2', m2⟩, hloop, hproj⟩ := h
      dsimp only [] at hproj
      rw [Prod.mk.injEq] at hproj
      obtain ⟨hres, hpr2⟩ := hproj
      subst hres
      obtain ⟨hst, hpar, _, hhole⟩ := init_fields hinit
      cases node0 with
      | child s p hh hl =>
        rw [show (PNode.child s p hh hl).parent_node = some p from rfl] at hpar
        cases hpar
      | root s hh hl =>
        subst hst
        have hgood : GoodNode s ((PNode.root s hh hl).setH h0) :=
          GoodNode.root s h0 hl rfl hhole
        have hinv : ∀ n ∈ heapify [(PNode.root s hh hl).setH h0],
            GoodNode s n := by
          rw [heapify_singleton]
          intro n hn
          rw [List.mem_singleton] at hn
          subst hn
          exact hgood
        obtain ⟨_, hres'⟩ :=
          a_star_loop_success fuel pr _ [] 1 hloop hinv
        obtain ⟨gn, hgn, hpath, hgoal⟩ := hres' path rfl
        subst hpath
        refine ⟨?_, ?_, construct_path_chain hgn, construct_path_g gn⟩
        · exact construct_path_head hgn
        · exact ⟨gn, construct_path_getLast gn, hgoal⟩

/-- Witness for C3 at the depth-1 instance (path of length 2). -/
theorem solution_path_law_witness :
    (∃ r l, [PNode.root [[1,2,3],[4,5,6],[7,0,8]] 1 (2, 1),
        PNode.child [[1,2,3],[4,5,6],[7,8,0]]
          (PNode.root [[1,2,3],[4,5,6],[7,0,8]] 1 (2, 1)) 0 (2, 2)] = r :: l ∧
      r.node_state = [[1,2,3],[4,5,6],[7,0,8]]) ∧
    (∃ gn, [PNode.root [[1,2,3],[4,5,6],[7,0,8]] 1 (2, 1),
        PNode.child [[1,2,3],[4,5,6],[7,8,0]]
          (PNode.root [[1,2,3],[4,5,6],[7,0,8]] 1 (2, 1)) 0 (2, 2)].getLast? =
        some gn ∧
      gn.node_state =
        (Problem.init (some [[1,2,3],[4,5,6],[7,8,0]]) true).goal_state) ∧
    List.Chain' (fun a b => isMove a.node_state b.node_state)
      [PNode.root [[1,2,3],[4,5,6],[7,0,8]] 1 (2, 1),
        PNode.child [[1,2,3],[4,5,6],[7,8,0]]
          (PNode.root [[1,2,3],[4,5,6],[7,0,8]] 1 (2, 1)) 0 (2, 2)] ∧
    ∀ k (hk : k < [PNode.root [[1,2,3],[4,5,6],[7,0,8]] 1 (2, 1),
        PNode.child [[1,2,3],[4,5,6],[7,8,0]]
          (PNode.root [[1,2,3],[4,5,6],[7,0,8]] 1 (2, 1)) 0 (2, 2)].length),
      ([PNode.root [[1,2,3],[4,5,6],[7,0,8]] 1 (2, 1),
        PNode.child [[1,2,3],[4,5,6],[7,8,0]]
          (PNode.root [[1,2,3],[4,5,6],[7,0,8]] 1 (2, 1)) 0 (2, 2)].get
        ⟨k, hk⟩).g = k :=
  solution_path_law (Problem.init (some [[1,2,3],[4,5,6],[7,8,0]]) true)
    [[1,2,3],[4,5,6],[7,0,8]] 9
    [PNode.root [[1,2,3],[4,5,6],[7,0,8]] 1 (2, 1),
      PNode.child [[1,2,3],[4,5,6],[7,8,0]]
        (PNode.root [[1,2,3],[4,5,6],[7,0,8]] 1 (2, 1)) 0 (2, 2)]
    { Problem.init (some [[1,2,3],[4,5,6],[7,8,0]]) true with
        nodes_expanded := 1
        nodes_generated := 3 }
    rfl

/-- C6: the loop returns the Python `None` result (`some (none, ..)` in the
embedding: a normal value, distinct from the `none` that models a raised
exception) exactly when the run exhausts the frontier having popped no node
whose state equals the goal state. -/
theorem no_solution_iff_exhausted (fuel : Nat) (pr : Problem)
    (frontier : List PNode) (explored : List Board) (maxf : Nat) :
    (∃ pr2 m2, a_star_loop fuel pr frontier explored maxf =
        some (none, pr2, m2)) ↔
    (∃ pops gens pr2 m2,
      a_star_trace fuel pr frontier explored maxf =
        some (pops, gens, none, pr2, m2) ∧
      ∀ s ∈ pops, s ≠ pr.goal_state) := by
  constructor
  · rintro ⟨pr2, m2, h⟩
    rw [a_star_trace_agree, Option.map_eq_some'] at h
    obtain ⟨⟨pops, gens, res, pr2', m2'⟩, htr, hproj⟩ := h
    dsimp only [] at hproj
    rw [Prod.mk.injEq] at hproj
    obtain ⟨hres, hrest⟩ := hproj
    rw [Prod.mk.injEq] at hrest
    obtain ⟨h1, h2⟩ := hrest
    subst hres h1 h2
    exact ⟨pops, gens, pr2', m2', htr,
      a_star_trace_nosol fuel pr frontier explored maxf htr⟩
  · rintro ⟨pops, gens, pr2, m2, htr, _⟩
    refine ⟨pr2, m2, ?_⟩
    rw [a_star_trace_agree, htr]
    rfl

/-- C2 (evaluation at the failing input): what `a_star_solve` actually
hands back on the depth-1 instance is the node path plus the problem whose
counters read `nodes_expanded = 1`, `nodes_generated = 3`; the loop's local
`max_frontier_size` reaches 3 but is dropped at the `return` — the source
computes it inside `a_star_solve` and never returns or prints it, so it is
not exposed to the caller. -/
theorem solve_depth1_run :
    (a_star_solve (Problem.init (some [[1,2,3],[4,5,6],[7,8,0]]) true)
        [[1,2,3],[4,5,6],[7,0,8]] 9).map
      (fun r => (r.1.map (List.map PNode.node_state),
        r.2.nodes_expanded, r.2.nodes_generated)) =
      some (some [[[1,2,3],[4,5,6],[7,0,8]], [[1,2,3],[4,5,6],[7,8,0]]],
        1, 3) ∧
    (a_star_loop 9 (Problem.init (some [[1,2,3],[4,5,6],[7,8,0]]) true)
        [PNode.root [[1,2,3],[4,5,6],[7,0,8]] 1 (2, 1)] [] 1).map
      (fun r => r.2.2) = some 3 :=
  ⟨by decide, by decide⟩

/-- Witness for C5 along the instrumented depth-1 run: one expansion,
three generated nodes, all other fields untouched. -/
theorem expansion_counters_witness :
    ({ Problem.init (some [[1,2,3],[4,5,6],[7,8,0]]) true with
        nodes_expanded := 1
        nodes_generated := 3 } : Problem).nodes_expanded =
      (Problem.init (some [[1,2,3],[4,5,6],[7,8,0]]) true).nodes_expanded +
        ([3] : List Nat).length ∧
    ({ Problem.init (some [[1,2,3],[4,5,6],[7,8,0]]) true with
        nodes_expanded := 1
        nodes_generated := 3 } : Problem).nodes_generated =
      (Problem.init (some [[1,2,3],[4,5,6],[7,8,0]]) true).nodes_generated +
        ([3] : List Nat).sum ∧
    ({ Problem.init (some [[1,2,3],[4,5,6],[7,8,0]]) true with
        nodes_expanded := 1
        nodes_generated := 3 } : Problem).goal_state =
      (Problem.init (some [[1,2,3],[4,5,6],[7,8,0]]) true).goal_state ∧
    ({ Problem.init (some [[1,2,3],[4,5,6],[7,8,0]]) true with
        nodes_expanded := 1
        nodes_generated := 3 } : Problem).use_manhattan =
      (Problem.init (some [[1,2,3],[4,5,6],[7,8,0]]) true).use_manhattan ∧
    ({ Problem.init (some [[1,2,3],[4,5,6],[7,8,0]]) true with
        nodes_expanded := 1
        nodes_generated := 3 } : Problem).goal_positions =
      (Problem.init (some [[1,2,3],[4,5,6],[7,8,0]]) true).goal_positions :=
  expansion_counters.2 9
    (Problem.init (some [[1,2,3],[4,5,6],[7,8,0]]) true)
    [PNode.root [[1,2,3],[4,5,6],[7,0,8]] 1 (2, 1)] [] 1
    [[[1,2,3],[4,5,6],[7,0,8]], [[1,2,3],[4,5,6],[7,8,0]]] [3]
    (some [PNode.root [[1,2,3],[4,5,6],[7,0,8]] 1 (2, 1),
      PNode.child [[1,2,3],[4,5,6],[7,8,0]]
        (PNode.root [[1,2,3],[4,5,6],[7,0,8]] 1 (2, 1)) 0 (2, 2)])
    { Problem.init (some [[1,2,3],[4,5,6],[7,8,0]]) true with
        nodes_expanded := 1
        nodes_generated := 3 } 3
    rfl

end Puzzle
